import Mathlib

/-!
Shallow embedding of the json_exporter repository (package main).

The repository holds two variants of the exporter:
* the current named file json_exporter.go, whose walker is
  extractJson and extractJsonArray, modelled below with the 0 suffix
  (extractJson0 and friends) in an Option monad so that the
  out-of-range byte access on an empty string value shows up as none;
* the evolved variant (src/unnamed/part_001) with jmx and lowercase
  modes, capture-group path labels (matchLabels, FindStringSubmatch)
  and a length guard on embedded JSON strings, modelled as the total
  functions extractJSON, extractJSONFields, extractJSONArray,
  extractJSONItems and walkValue.

Go values produced by json.Unmarshal into interface\x7b\x7d are dispatched by
dynamic type: string, int, float64, bool, map[string]interface\x7b\x7d,
[]interface\x7b\x7d and anything else (nil).  They are modelled by the mutual
inductive family JValue / JParse / JObject / JArray.  Because the Go code
re-parses string values that contain embedded JSON documents, each string
node carries the result that json.Unmarshal would return on that string
(JParse.fail for a parse error, JParse.ok o for a parsed object): the
parser is external to the repository, so its outcome is data of the model.

Go maps are modelled as association lists: the list order stands for one
possible map iteration order (Go map iteration order is unspecified, and
every claim proved here is per-order).  float64 is modelled as Rat; the
only operations the code performs on float values are storing them,
converting ints with float64(.), and the constants 0 and 1, all of which
Rat supports exactly.  strconv.FormatFloat(v, E, -1, 64) is kept abstract
as a configuration field formatFloat.  Time instants are modelled as Int,
with time.Before as the strict order.
-/

namespace JsonExporter

-- Model of a Go JSON value as produced by json.Unmarshal into an
-- interface value.  A string node carries the parse outcome that
-- json.Unmarshal would produce on its content.
mutual
inductive JValue where
  | str : String → JParse → JValue
  | int : Int → JValue
  | num : ℚ → JValue
  | bool : Bool → JValue
  | obj : JObject → JValue
  | arr : JArray → JValue
  | null : JValue
deriving DecidableEq, Repr
inductive JParse where
  | fail : JParse
  | ok : JObject → JParse
deriving DecidableEq, Repr
inductive JObject where
  | nil : JObject
  | cons : String → JValue → JObject → JObject
deriving DecidableEq, Repr
inductive JArray where
  | anil : JArray
  | acons : JValue → JArray → JArray
deriving DecidableEq, Repr
end

/-- Model of a compiled Go regexp by the two methods the exporter calls:
MatchString and FindStringSubmatch.  FindStringSubmatch returns the empty
list when the regexp does not match, and otherwise the whole match
followed by one entry per capture group. -/
structure Regex where
  matchString : String → Bool
  findStringSubmatch : String → List String

/-- Model of strings.Replace(s, old, new, -1) for new = "", as used by
the path-label stripping code: removes every non-overlapping occurrence
of old from s, scanning left to right.  The fuel argument is one more
than the number of characters, which is enough because every step either
consumes at least one character of s (old nonempty) or returns. -/
def removeAllAux : Nat → List Char → List Char → List Char
  | 0, _, _ => []
  | _ + 1, _, [] => []
  | n + 1, old, c :: rest =>
    if old.isPrefixOf (c :: rest) then removeAllAux n old ((c :: rest).drop old.length)
    else c :: removeAllAux n old rest

/-- strings.Replace(s, old, "", -1).  With an empty pattern Go inserts the
empty replacement at every boundary, leaving s unchanged. -/
def goRemoveAll (s old : String) : String :=
  if old = "" then s else ⟨removeAllAux (s.data.length + 1) old.data s.data⟩

/-- strings.ToLower, modelled characterwise. -/
def golower (s : String) : String := ⟨s.data.map Char.toLower⟩

/-- The byte access s[0] of Go on a string: none exactly when the index 0
is out of range (the empty string), in which case Go panics. -/
def goByte0 (s : String) : Option Char := s.data.head?

/-- The metric-name step shared by both walkers: newMetric is
metric + "_" + k when metric is nonempty and k alone otherwise. -/
def buildName (metric k : String) : String :=
  if 0 < metric.utf8ByteSize then metric ++ "_" ++ k else k

/-- Lookup in a Go map modelled as an association list: the value of the
first entry carrying the key. -/
def alookup {κ α : Type} [DecidableEq κ] (m : List (κ × α)) (k : κ) : Option α :=
  match m with
  | [] => none
  | p :: tl => if p.1 = k then some p.2 else alookup tl k

/-- Go map read with the zero value returned on a missing key. -/
def lookupD (m : List (String × Nat)) (k : String) (d : Nat) : Nat :=
  (alookup m k).getD d

/-- Go map store m[k] = v: replace the entry in place when the key is
present, append it otherwise. -/
def aset {κ α : Type} [DecidableEq κ] (m : List (κ × α)) (k : κ) (v : α) : List (κ × α) :=
  if (alookup m k).isSome then m.map (fun p => if p.1 = k then (k, v) else p)
  else m ++ [(k, v)]

/-- Go delete(m, k): drop every entry carrying the key. -/
def adel {α : Type} (m : List (String × α)) (k : String) : List (String × α) :=
  match m with
  | [] => []
  | p :: tl => if p.1 = k then adel tl k else p :: adel tl k

/-- One gauge vector of the prometheus client, as the exporter uses it:
the label names fixed at creation time and the map from label-value rows
to the current gauge value. -/
structure GaugeVec where
  labelNames : List String
  help : String
  values : List (List String × ℚ)
deriving DecidableEq, Repr

/-- One observation delivered to a gauge (a WithLabelValues(...).Set(v)
call that passed the name filter), recorded together with the label
names and label values the exporter held at that moment. -/
structure Obs where
  name : String
  value : ℚ
  labels : List String
  labelvalues : List String
deriving DecidableEq, Repr

/-- The immutable part of the Exporter struct: configuration read at
startup.  cleaner models the strings.Replacer of jmx mode and
formatFloat models strconv.FormatFloat(v, E, -1, 64). -/
structure Cfg where
  urls : List String
  jmx : Bool
  lowercase : Bool
  blacklist : Option Regex
  whitelist : Option Regex
  pathlabels : List (String × Regex)
  cleaner : String → String
  formatFloat : ℚ → String
  interval : Int

/-- The mutable part of the Exporter struct.  obs and parseLog are
observation traces: obs records the gauge observations and parseLog the
non-debug log lines for embedded JSON parse failures. -/
structure St where
  labels : List String
  labelvalues : List String
  up : ℚ
  gauges : List (String × GaugeVec)
  updated : List (String × Nat)
  exist : List (String × Nat)
  nextrefresh : Int
  obs : List Obs
  parseLog : List String
deriving DecidableEq, Repr

/-- Matching metric names against blacklist/whitelist (matchMetric,
identical in both variants). -/
def matchMetric (cfg : Cfg) (name : String) : Bool :=
  if ((match cfg.blacklist with
       | some r => r.matchString name
       | none => false) ||
      (match cfg.whitelist with
       | some r => ! r.matchString name
       | none => false)) then
    false
  else
    true

/-- matchLabel: the first map entry whose regex matches the name, or ""
when none does. -/
def matchLabel (name : String) (labelRegex : List (String × Regex)) : String :=
  match labelRegex.find? (fun p => p.2.matchString name) with
  | some p => p.1
  | none => ""

/-- matchLabels of the part_001 variant: every map entry whose regex
matches the name, in iteration order. -/
def matchLabels (name : String) (labelRegex : List (String × Regex)) : List String :=
  (labelRegex.filter (fun p => p.2.matchString name)).map Prod.fst

/-- The helpSuffix constant appended to every help line. -/
def helpSuffix : String := " json_exporter exported metric"

/-- Shared body of addGauge in both variants, after the part_001 variant
has optionally lowercased the name: filter the name, create the gauge
vector with the current label names on first sight (initialising both
counters to 0), set the value for the current label-value row, and
increment the updated counter.  The observation is recorded in the obs
trace. -/
def addGaugeCore (cfg : Cfg) (st : St) (name : String) (value : ℚ) (help : String) : St :=
  if matchMetric cfg name then
    let st :=
      if (alookup st.gauges name).isSome then st
      else
        { st with
          gauges := aset st.gauges name ⟨st.labels, help, []⟩,
          updated := aset st.updated name 0,
          exist := aset st.exist name 0 }
    let g := (alookup st.gauges name).getD ⟨st.labels, help, []⟩
    { st with
      gauges := aset st.gauges name { g with values := aset g.values st.labelvalues value },
      updated := aset st.updated name (lookupD st.updated name 0 + 1),
      obs := st.obs ++ [⟨name, value, st.labels, st.labelvalues⟩] }
  else st

/-- addGauge of the part_001 variant (lowercases the name first when the
lowercase flag is set). -/
def addGauge (cfg : Cfg) (st : St) (name : String) (value : ℚ) (help : String) : St :=
  addGaugeCore cfg st (if cfg.lowercase then golower name else name) value help

/-- addGauge of the json_exporter.go variant (no lowercase mode). -/
def addGauge0 (cfg : Cfg) (st : St) (name : String) (value : ℚ) (help : String) : St :=
  addGaugeCore cfg st name value help

/-- addLabel of the json_exporter.go variant: push one (name, value)
pair onto the two parallel slices. -/
def addLabel0 (st : St) (name value : String) : St :=
  { st with labels := st.labels ++ [name], labelvalues := st.labelvalues ++ [value] }

/-- The label name as stored by the part_001 addLabel: lowercased when
the lowercase flag is set. -/
def labName (cfg : Cfg) (name : String) : String :=
  if cfg.lowercase then golower name else name

/-- addLabel of the part_001 variant: lowercases the label name first
when the lowercase flag is set. -/
def addLabel (cfg : Cfg) (st : St) (name value : String) : St :=
  addLabel0 st (labName cfg name) value

/-- delLastLabels(num) of the part_001 variant: truncate both parallel
slices to len(labels) - num, doing nothing when that index is
negative. -/
def delLastLabels (st : St) (num : Nat) : St :=
  if num ≤ st.labels.length then
    { st with
      labels := st.labels.take (st.labels.length - num),
      labelvalues := st.labelvalues.take (st.labels.length - num) }
  else st

/-- delLastLabel of the json_exporter.go variant: drop the latest label
pair, doing nothing on empty slices. -/
def delLastLabel (st : St) : St :=
  if 1 ≤ st.labels.length then
    { st with
      labels := st.labels.take (st.labels.length - 1),
      labelvalues := st.labelvalues.take (st.labels.length - 1) }
  else st

/-- One iteration of the path-label loop of the part_001 walker: re-run
FindStringSubmatch on the current working name; when it yields a capture
group, strip the whole match from the working name (falling back to the
label name when the result is empty) and push (label, first capture).
Labels handed to this step come from matchLabels and are always keys of
the pathlabels map, so the none branch of the lookup is unreachable. -/
def applyPathLabel (cfg : Cfg) (acc : St × String) (label : String) : St × String :=
  match alookup cfg.pathlabels label with
  | none => acc
  | some r =>
    let value := r.findStringSubmatch acc.2
    if 1 < value.length then
      let nm := goRemoveAll acc.2 (value.getD 0 "")
      let nm2 := if nm.utf8ByteSize < 1 then label else nm
      (addLabel cfg acc.1 label (value.getD 1 ""), nm2)
    else acc

/-- The path-label loop of the part_001 walker, inlined identically in
extractJSON and extractJSONArray. -/
def applyPathLabels (cfg : Cfg) (st : St) (newMetric : String) (labels : List String) :
    St × String :=
  labels.foldl (applyPathLabel cfg) (st, newMetric)

/-- The log line emitted when an embedded JSON string fails to parse. -/
def logParse (st : St) (newMetric : String) : St :=
  { st with parseLog := st.parseLog ++ ["Failed to parse json from string " ++ newMetric] }

/-- Lookup of a key in a JSON object (Go map indexing; the list order
stands for the map layout). -/
def jLookup : JObject → String → Option JValue
  | .nil, _ => none
  | .cons k v r, key => if k = key then some v else jLookup r key

/-- The jmx-mode name replacement of part_001: jsonInt["name"].(string)
when present and a string. -/
def jmxName (o : JObject) : Option String :=
  match jLookup o "name" with
  | some (.str s _) => some s
  | _ => none

/-- The jmx-mode metric replacement performed by extractJSON before its
loop: in jmx mode, a string-valued name key of the object replaces the
incoming metric prefix after cleaning. -/
def jmxAdjust (cfg : Cfg) (metric : String) (jsonInt : JObject) : String :=
  if cfg.jmx then
    match jmxName jsonInt with
    | some nm => cfg.cleaner nm
    | none => metric
  else metric

-- The tree walker of the part_001 variant.  The type switch bodies of
-- extractJSON and extractJSONArray are identical apart from debug log
-- lines (which are not modelled), so they are shared as walkValue; the
-- wrappers extractJSON and extractJSONArray themselves are defined
-- after the mutual block.
mutual
def extractJSONFields (cfg : Cfg) (st : St) (metric : String) : JObject → St
  | .nil => st
  | .cons k v rest =>
    let newMetric := buildName metric k
    let labels := matchLabels newMetric cfg.pathlabels
    let p := applyPathLabels cfg st newMetric labels
    let st1 := walkValue cfg p.1 p.2 v
    let st2 := if 0 < labels.length then delLastLabels st1 labels.length else st1
    extractJSONFields cfg st2 metric rest

def walkValue (cfg : Cfg) (st : St) (newMetric : String) : JValue → St
  | .str vv parsed =>
    if 2 < vv.utf8ByteSize ∧ goByte0 vv = some '{' then
      match parsed with
      | .fail => logParse st newMetric
      | .ok stats => extractJSONFields cfg st (jmxAdjust cfg newMetric stats) stats
    else st
  | .int vv => addGauge cfg st newMetric ((vv : ℚ)) (newMetric ++ helpSuffix)
  | .num vv => addGauge cfg st newMetric vv (newMetric ++ helpSuffix)
  | .bool vv =>
    if vv then addGauge cfg st newMetric 1 (newMetric ++ helpSuffix)
    else addGauge cfg st newMetric 0 (newMetric ++ helpSuffix)
  | .obj vv => extractJSONFields cfg st (jmxAdjust cfg newMetric vv) vv
  | .arr vv => extractJSONItems cfg st newMetric 0 vv
  | .null => st

def extractJSONItems (cfg : Cfg) (st : St) (metric : String) (k : Nat) : JArray → St
  | .anil => st
  | .acons v rest =>
    let newMetric := buildName metric (toString k)
    let labels := matchLabels newMetric cfg.pathlabels
    let p := applyPathLabels cfg st newMetric labels
    let st1 := walkValue cfg p.1 p.2 v
    let st2 := if 0 < labels.length then delLastLabels st1 labels.length else st1
    extractJSONItems cfg st2 metric (k + 1) rest
end

/-- extractJSON of the part_001 variant: the jmx name replacement
followed by the field loop. -/
def extractJSON (cfg : Cfg) (st : St) (metric : String) (jsonInt : JObject) : St :=
  extractJSONFields cfg st (jmxAdjust cfg metric jsonInt) jsonInt

/-- extractJSONArray of the part_001 variant: the item loop from index
0. -/
def extractJSONArray (cfg : Cfg) (st : St) (metric : String) (jsonInt : JArray) : St :=
  extractJSONItems cfg st metric 0 jsonInt

-- The tree walker of the json_exporter.go variant, in an Option monad:
-- none models the panic of the unguarded byte access vv[0] on an empty
-- string value.  Its two type switches are likewise shared as
-- walkValue0, and extractJsonArray0 is a wrapper defined after the
-- block.
mutual
def extractJson0 (cfg : Cfg) (st : St) (metric : String) : JObject → Option St
  | .nil => some st
  | .cons k v rest =>
    let newMetric := buildName metric k
    let label := matchLabel newMetric cfg.pathlabels
    let p : St × String := if label ≠ "" then (addLabel0 st label k, label) else (st, newMetric)
    match walkValue0 cfg p.1 p.2 v with
    | none => none
    | some st1 =>
      let st2 := if label ≠ "" then delLastLabel st1 else st1
      extractJson0 cfg st2 metric rest

def walkValue0 (cfg : Cfg) (st : St) (newMetric : String) : JValue → Option St
  | .str vv parsed =>
    match goByte0 vv with
    | none => none
    | some c =>
      if c = '{' then
        match parsed with
        | .fail => some (logParse st newMetric)
        | .ok stats => extractJson0 cfg st newMetric stats
      else some st
  | .int vv => some (addGauge0 cfg st newMetric ((vv : ℚ)) (newMetric ++ helpSuffix))
  | .num vv => some (addGauge0 cfg st newMetric vv (newMetric ++ helpSuffix))
  | .bool vv =>
    some (if vv then addGauge0 cfg st newMetric 1 (newMetric ++ helpSuffix)
          else addGauge0 cfg st newMetric 0 (newMetric ++ helpSuffix))
  | .obj vv => extractJson0 cfg st newMetric vv
  | .arr vv => extractJsonItems0 cfg st newMetric 0 vv
  | .null => some st

def extractJsonItems0 (cfg : Cfg) (st : St) (metric : String) (k : Nat) : JArray → Option St
  | .anil => some st
  | .acons v rest =>
    let newMetric := buildName metric (toString k)
    let label := matchLabel newMetric cfg.pathlabels
    let p : St × String :=
      if label ≠ "" then (addLabel0 st label (toString k), label) else (st, newMetric)
    match walkValue0 cfg p.1 p.2 v with
    | none => none
    | some st1 =>
      let st2 := if label ≠ "" then delLastLabel st1 else st1
      extractJsonItems0 cfg st2 metric (k + 1) rest
end

/-- extractJsonArray of the json_exporter.go variant: the item loop
from index 0. -/
def extractJsonArray0 (cfg : Cfg) (st : St) (metric : String) (jsonInt : JArray) : Option St :=
  extractJsonItems0 cfg st metric 0 jsonInt

/-- The matched-label type switch of extractLabel: record the scalar
value of the field as the label value (strings verbatim, ints in
decimal, floats through FormatFloat, booleans through FormatBool); any
other value type adds nothing. -/
def extractLabelScalar (cfg : Cfg) (st : St) (label : String) : JValue → St
  | .str vv _ => addLabel cfg st label vv
  | .int vv => addLabel cfg st label (toString vv)
  | .num vv => addLabel cfg st label (cfg.formatFloat vv)
  | .bool vv => addLabel cfg st label (if vv then "true" else "false")
  | _ => st

-- extractLabel, identical in both variants (the go file uses the
-- variant of addLabel without lowercase, obtained here with the
-- lowercase flag unset): walk the object, and at each entry, as long as
-- the pending map is nonempty, either consume the first matching
-- pending label (deleting it from the map and recording the stringified
-- scalar value through extractLabelScalar) or recurse into object
-- values whose path did not match (the unmatched type switch is
-- extractLabelDescend).
mutual
def extractLabel (cfg : Cfg) (metric : String) (st : St)
    (regexMap : List (String × Regex)) : JObject → St × List (String × Regex)
  | .nil => (st, regexMap)
  | .cons k v rest =>
    if regexMap.length = 0 then (st, regexMap)
    else
      let newMetric := buildName metric k
      let label := matchLabel newMetric regexMap
      if label ≠ "" then
        extractLabel cfg metric (extractLabelScalar cfg st label v) (adel regexMap label) rest
      else
        let p := extractLabelDescend cfg newMetric st regexMap v
        extractLabel cfg metric p.1 p.2 rest

def extractLabelDescend (cfg : Cfg) (newMetric : String) (st : St)
    (regexMap : List (String × Regex)) : JValue → St × List (String × Regex)
  | .obj vv => extractLabel cfg newMetric st regexMap vv
  | .str _ _ => (st, regexMap)
  | .int _ => (st, regexMap)
  | .num _ => (st, regexMap)
  | .bool _ => (st, regexMap)
  | .arr _ => (st, regexMap)
  | .null => (st, regexMap)
end

/-- collectLabels: one entry of the list per configured URL, none when
the fetch, the body read or the JSON parse failed (all three failures
just continue to the next URL).  After each successfully walked
document, stop when the pending map became empty. -/
def collectLabels (cfg : Cfg) (st : St) (regexMap : List (String × Regex)) :
    List (Option JObject) → St × List (String × Regex)
  | [] => (st, regexMap)
  | d :: rest =>
    match d with
    | none => collectLabels cfg st regexMap rest
    | some doc =>
      let p := extractLabel cfg "" st regexMap doc
      if p.2.length = 0 then p else collectLabels cfg p.1 p.2 rest

/-- The outcome of one URL fetch in Collect: transport error, body read
error, or a body whose top-level JSON parse yielded the given result
(none for an unmarshal error). -/
inductive Fetch where
  | errTransport : Fetch
  | errRead : Fetch
  | okBody : Option JObject → Fetch

/-- The per-URL body of the fetch loop in Collect (part_001 variant):
transport and read failures set the availability gauge to 0 and skip the
URL; a fetched body sets it to 1, and the document is walked when the
top-level unmarshal succeeded. -/
def fetchStep (cfg : Cfg) (st : St) (result : Fetch) : St :=
  match result with
  | .errTransport => { st with up := 0 }
  | .errRead => { st with up := 0 }
  | .okBody parsed =>
    let st1 := { st with up := 1 }
    match parsed with
    | none => st1
    | some allStats => extractJSON cfg st1 "" allStats

/-- The URL loop of Collect, driven by a fetch oracle giving each URL
its outcome for this cycle. -/
def fetchLoop (cfg : Cfg) (fetch : String → Fetch) (st : St) : List String → St
  | [] => st
  | uri :: rest => fetchLoop cfg fetch (fetchStep cfg st (fetch uri)) rest

/-- One entry of the eviction pass at the start of a refresh cycle: an
updated counter that fell strictly below its exist baseline deletes the
series and both counters; otherwise the baseline becomes the latest
count and the live counter is reset to 0. -/
def evictStep (st : St) (entry : String × Nat) : St :=
  if entry.2 < lookupD st.exist entry.1 0 then
    { st with
      updated := adel st.updated entry.1,
      exist := adel st.exist entry.1,
      gauges := adel st.gauges entry.1 }
  else
    { st with
      exist := aset st.exist entry.1 (lookupD st.updated entry.1 0),
      updated := aset st.updated entry.1 0 }

/-- The eviction pass: iterate over the updated map as it stood at the
start of the cycle.  Each entry touches only its own name, so a fold
over the snapshot models the Go range loop for any iteration order. -/
def evictPass (st : St) : St := st.updated.foldl evictStep st

/-- Collect (part_001 variant): when the refresh deadline has passed,
run the eviction pass, fetch and walk every configured URL, and schedule
the next refresh; otherwise leave the state untouched.  now is the
time.Now() of the deadline check and endTime the time.Now() taken after
the URL loop. -/
def Collect (cfg : Cfg) (fetch : String → Fetch) (now endTime : Int) (st : St) : St :=
  if st.nextrefresh < now then
    let st1 := evictPass st
    let st2 := fetchLoop cfg fetch st1 cfg.urls
    { st2 with nextrefresh := endTime + cfg.interval }
  else st

/-- What a Collect call reports on its channel: every live gauge vector,
followed by the availability gauge. -/
def report (st : St) : List (String × GaugeVec) × ℚ := (st.gauges, st.up)

/-! ### Shared concrete fixtures -/

/-- A minimal configuration: one URL, no filters, no path labels, no jmx
and no lowercase mode, refresh interval 10. -/
def rcfg : Cfg :=
  { urls := ["u"], jmx := false, lowercase := false, blacklist := none, whitelist := none,
    pathlabels := [], cleaner := id, formatFloat := fun _ => "", interval := 10 }

/-- The initial exporter state: no static labels, empty maps, next
refresh due immediately. -/
def st0 : St := ⟨[], [], 0, [], [], [], 0, [], []⟩

/-- A one-field document whose only leaf is the integer 5 at path a_b. -/
def doc1 : JObject := .cons "a" (.obj (.cons "b" (.int 5) .nil)) .nil

/-- A fetch oracle serving doc1 on every URL. -/
def fetchDoc1 : String → Fetch := fun _ => .okBody (some doc1)

/-- A fetch oracle serving the empty document on every URL. -/
def fetchEmpty : String → Fetch := fun _ => .okBody (some .nil)

/-! ### Association list lemmas -/

theorem alookup_replace_self {κ α : Type} [DecidableEq κ] (m : List (κ × α)) (k : κ) (v : α)
    (h : (alookup m k).isSome = true) :
    alookup (m.map (fun p => if p.1 = k then (k, v) else p)) k = some v := by
  induction m with
  | nil => simp [alookup] at h
  | cons p tl ih =>
    by_cases hk : p.1 = k
    · simp [alookup, hk]
    · simp only [alookup, if_neg hk] at h
      simpa [alookup, hk] using ih h

theorem alookup_append_self {κ α : Type} [DecidableEq κ] (m : List (κ × α)) (k : κ) (v : α)
    (h : alookup m k = none) : alookup (m ++ [(k, v)]) k = some v := by
  induction m with
  | nil => simp [alookup]
  | cons p tl ih =>
    by_cases hk : p.1 = k
    · simp [alookup, hk] at h
    · simp only [alookup, if_neg hk] at h
      simpa [alookup, hk] using ih h

theorem alookup_replace_other {κ α : Type} [DecidableEq κ] (m : List (κ × α)) (k k2 : κ)
    (v : α) (h : k2 ≠ k) :
    alookup (m.map (fun p => if p.1 = k then (k, v) else p)) k2 = alookup m k2 := by
  induction m with
  | nil => simp [alookup]
  | cons p tl ih =>
    by_cases hk : p.1 = k
    · have hne : ¬ (k = k2) := fun he => h he.symm
      simp [alookup, hk, hne, ih]
    · by_cases hk2 : p.1 = k2
      · simp [alookup, hk, hk2, h]
      · simp [alookup, hk, hk2, ih]

theorem alookup_append_other {κ α : Type} [DecidableEq κ] (m : List (κ × α)) (k k2 : κ)
    (v : α) (h : k2 ≠ k) : alookup (m ++ [(k, v)]) k2 = alookup m k2 := by
  induction m with
  | nil =>
    have hne : ¬ (k = k2) := fun he => h he.symm
    simp [alookup, hne]
  | cons p tl ih =>
    by_cases hk2 : p.1 = k2
    · simp [alookup, hk2]
    · simp [alookup, hk2, ih]

theorem alookup_aset_self {κ α : Type} [DecidableEq κ] (m : List (κ × α)) (k : κ) (v : α) :
    alookup (aset m k v) k = some v := by
  unfold aset
  by_cases h : (alookup m k).isSome
  · rw [if_pos h]
    exact alookup_replace_self m k v h
  · rw [if_neg h]
    exact alookup_append_self m k v (Option.not_isSome_iff_eq_none.mp h)

theorem alookup_aset_other {κ α : Type} [DecidableEq κ] (m : List (κ × α)) (k k2 : κ)
    (v : α) (h : k2 ≠ k) : alookup (aset m k v) k2 = alookup m k2 := by
  unfold aset
  by_cases hs : (alookup m k).isSome
  · rw [if_pos hs]
    exact alookup_replace_other m k k2 v h
  · rw [if_neg hs]
    exact alookup_append_other m k k2 v h

theorem alookup_adel_self {α : Type} (m : List (String × α)) (k : String) :
    alookup (adel m k) k = none := by
  induction m with
  | nil => simp [adel, alookup]
  | cons p tl ih =>
    by_cases hk : p.1 = k
    · simpa [adel, hk] using ih
    · simpa [adel, hk, alookup] using ih

theorem alookup_adel_other {α : Type} (m : List (String × α)) (k k2 : String)
    (h : k2 ≠ k) : alookup (adel m k) k2 = alookup m k2 := by
  induction m with
  | nil => simp [adel]
  | cons p tl ih =>
    by_cases hk : p.1 = k
    · have hne : ¬ (k = k2) := fun he => h he.symm
      simpa [adel, hk, alookup, hne] using ih
    · by_cases hk2 : p.1 = k2
      · simp [adel, hk, alookup, hk2, h]
      · simp [adel, hk, alookup, hk2, ih]

theorem alookup_of_mem_nodup {κ α : Type} [DecidableEq κ] (m : List (κ × α)) (k : κ)
    (v : α) (hmem : (k, v) ∈ m) (hnd : (m.map Prod.fst).Nodup) : alookup m k = some v := by
  induction m with
  | nil => simp at hmem
  | cons p tl ih =>
    rcases List.mem_cons.mp hmem with he | htl
    · rw [← he]
      simp [alookup]
    · have hk : ¬ (p.1 = k) := by
        intro he2
        have : p.1 ∈ tl.map Prod.fst := by
          rw [he2]
          exact List.mem_map.mpr ⟨(k, v), htl, rfl⟩
        exact (List.nodup_cons.mp hnd).1 this
      simp only [alookup, if_neg hk]
      exact ih htl (List.nodup_cons.mp hnd).2

theorem alookup_isSome_of_mem_keys {κ α : Type} [DecidableEq κ] (m : List (κ × α))
    (k : κ) (hmem : k ∈ m.map Prod.fst) : (alookup m k).isSome = true := by
  induction m with
  | nil => simp at hmem
  | cons p tl ih =>
    by_cases hk : p.1 = k
    · simp [alookup, hk]
    · simp only [List.map, List.mem_cons] at hmem
      rcases hmem with he | htl
      · exact absurd he.symm hk
      · simpa [alookup, hk] using ih htl

theorem mem_of_alookup_some {κ α : Type} [DecidableEq κ] (m : List (κ × α)) (k : κ)
    (v : α) (h : alookup m k = some v) : (k, v) ∈ m := by
  induction m with
  | nil => simp [alookup] at h
  | cons p tl ih =>
    by_cases hk : p.1 = k
    · simp only [alookup, if_pos hk, Option.some_inj] at h
      have hp : p = (k, v) := by
        rcases p with ⟨k1, v1⟩
        simp only at hk h
        rw [hk, h]
      rw [hp]
      exact List.mem_cons_self _ _
    · simp only [alookup, if_neg hk] at h
      exact List.mem_cons_of_mem _ (ih h)

/-! ### C5: blacklist/whitelist name filtering -/

/-- A regex matching every string (used to instantiate filter claims). -/
def rxTrue : Regex := ⟨fun _ => true, fun _ => []⟩

/-- C5: the name filter accepts a candidate name iff it is not matched
by a configured blacklist regex and, when a whitelist regex is
configured, is matched by the whitelist; a name matching both blacklist
and whitelist is rejected (blacklist precedence), and with no filters
configured every name is accepted. -/
theorem c5_matchMetric_filter (cfg : Cfg) (name : String) :
    (matchMetric cfg name = true ↔
      ((∀ rb, cfg.blacklist = some rb → rb.matchString name = false) ∧
       (∀ rw, cfg.whitelist = some rw → rw.matchString name = true))) ∧
    (∀ rb rw, cfg.blacklist = some rb → cfg.whitelist = some rw →
      rb.matchString name = true → rw.matchString name = true →
      matchMetric cfg name = false) ∧
    (cfg.blacklist = none → cfg.whitelist = none → matchMetric cfg name = true) := by
  unfold matchMetric
  rcases hb : cfg.blacklist with _ | rb <;> rcases hw : cfg.whitelist with _ | rw
  · simp
  · cases hm : rw.matchString name <;> simp [hm]
  · cases hm : rb.matchString name <;> simp [hm]
  · cases hmb : rb.matchString name <;> cases hmw : rw.matchString name <;>
      simp [hmb, hmw]

/-- Witness for C5 at a concrete configuration where both filters match
the name: the metric is rejected. -/
theorem c5_matchMetric_filter_witness :
    matchMetric { rcfg with blacklist := some rxTrue, whitelist := some rxTrue } "x" = false :=
  (c5_matchMetric_filter { rcfg with blacklist := some rxTrue, whitelist := some rxTrue }
    "x").2.1 rxTrue rxTrue rfl rfl rfl rfl

/-! ### C7: idempotence within the refresh interval -/

/-- C7: a Collect call arriving before the next-refresh deadline has
elapsed performs no eviction, fetch or walk: the whole state (gauge map,
updated and exist counters, nextrefresh) is unchanged and the reported
metric set is the one produced by the previous cycle. -/
theorem c7_collect_idempotent_within_interval (cfg : Cfg) (fetch : String → Fetch)
    (now endTime : Int) (st : St) (h : ¬ st.nextrefresh < now) :
    Collect cfg fetch now endTime st = st ∧
    report (Collect cfg fetch now endTime st) = report st := by
  unfold Collect
  rw [if_neg h]
  exact ⟨rfl, rfl⟩

/-- Witness for C7 at the initial state with the deadline not yet
passed. -/
theorem c7_collect_idempotent_within_interval_witness :
    Collect rcfg fetchDoc1 0 0 st0 = st0 ∧
    report (Collect rcfg fetchDoc1 0 0 st0) = report st0 :=
  c7_collect_idempotent_within_interval rcfg fetchDoc1 0 0 st0 (by decide)

/-! ### C9: the unguarded byte access on empty string values -/

/-- C9: the json_exporter.go walker is not total on documents holding an
empty-string field value: the embedded-JSON check reads vv[0] without a
nonemptiness guard, so the walk of any document with an empty string
value panics (none in the model); the part_001 guard 2 < len(vv) keeps
the same access in range, since such a string is nonempty. -/
theorem c9_empty_string_not_total (cfg : Cfg) (st : St) (metric k : String)
    (parsed : JParse) (rest : JObject) :
    extractJson0 cfg st metric (.cons k (.str "" parsed) rest) = none ∧
    (∀ s : String, 2 < s.utf8ByteSize → (goByte0 s).isSome = true) := by
  constructor
  · simp [extractJson0, walkValue0, goByte0]
  · intro s hs
    rcases s with ⟨data⟩
    cases data with
    | nil => exact absurd hs (by decide)
    | cons c cs => simp [goByte0]

/-- Witness for C9: a concrete document with an empty string value makes
the go-file walker panic, while any string long enough for the part_001
guard has its first byte in range. -/
theorem c9_empty_string_not_total_witness :
    extractJson0 rcfg st0 "" (.cons "a" (.str "" .fail) .nil) = none ∧
    (goByte0 "abc").isSome = true :=
  ⟨(c9_empty_string_not_total rcfg st0 "" "a" .fail .nil).1,
   (c9_empty_string_not_total rcfg st0 "" "a" .fail .nil).2 "abc" (by decide)⟩

/-! ### C8: embedded JSON strings walk like native objects -/

/-- C8: walking a string field whose content parses to an object o is
identical to walking a native object o at the same path, in both
variants (for part_001 the empty object also agrees, since a string of
byte length at most 2 can only parse to the empty object, which emits
nothing); and a string starting with a brace that fails to parse is
logged and contributes no metrics (in part_001 under its length guard). -/
theorem c8_embedded_json_roundtrip (cfg : Cfg) (st : St) (p vv : String) (o : JObject)
    (h1 : goByte0 vv = some '{') :
    (walkValue0 cfg st p (.str vv (.ok o)) = walkValue0 cfg st p (.obj o)) ∧
    (walkValue0 cfg st p (.str vv .fail) = some (logParse st p)) ∧
    ((vv.utf8ByteSize ≤ 2 → o = .nil) →
      walkValue cfg st p (.str vv (.ok o)) = walkValue cfg st p (.obj o)) ∧
    (2 < vv.utf8ByteSize → walkValue cfg st p (.str vv .fail) = logParse st p) := by
  refine ⟨?_, ?_, ?_, ?_⟩
  · simp [walkValue0, h1]
  · simp [walkValue0, h1]
  · intro hco
    by_cases hlen : 2 < vv.utf8ByteSize
    · simp [walkValue, hlen, h1]
    · have ho : o = .nil := hco (le_of_not_lt hlen)
      subst ho
      simp [walkValue, hlen, extractJSONFields]
  · intro hlen
    simp [walkValue, hlen, h1]

/-- Witness for C8 at a concrete three-byte string starting with a
brace. -/
theorem c8_embedded_json_roundtrip_witness :
    (walkValue0 rcfg st0 "k" (.str "\x7bxx" (.ok (.cons "b" (.int 2) .nil))) =
      walkValue0 rcfg st0 "k" (.obj (.cons "b" (.int 2) .nil))) ∧
    (walkValue rcfg st0 "k" (.str "\x7bxx" .fail) = logParse st0 "k") :=
  ⟨(c8_embedded_json_roundtrip rcfg st0 "k" "\x7bxx" (.cons "b" (.int 2) .nil)
      (by decide)).1,
   (c8_embedded_json_roundtrip rcfg st0 "k" "\x7bxx" (.cons "b" (.int 2) .nil)
      (by decide)).2.2.2 (by decide)⟩

/-! ### C2: path-label capture and stripping (part_001) -/

/-- C2: at a node whose accumulated path matches exactly one configured
path-label regex and whose FindStringSubmatch result carries a capture
group, the part_001 walker strips the whole match from the working
metric name (replacing an emptied name by the label name), pushes the
pair (label, first capture) onto the label stack, dispatches on the
value under that stack, and pops afterwards. -/
theorem c2_pathlabel_capture (cfg : Cfg) (st : St) (metric k : String) (v : JValue)
    (rest : JObject) (l m0 m1 : String) (tl : List String) (r : Regex)
    (hm : matchLabels (buildName metric k) cfg.pathlabels = [l])
    (hr : alookup cfg.pathlabels l = some r)
    (hs : r.findStringSubmatch (buildName metric k) = m0 :: m1 :: tl) :
    extractJSONFields cfg st metric (.cons k v rest) =
      extractJSONFields cfg
        (delLastLabels
          (walkValue cfg (addLabel cfg st l m1)
            (if (goRemoveAll (buildName metric k) m0).utf8ByteSize < 1 then l
             else goRemoveAll (buildName metric k) m0) v) 1)
        metric rest := by
  have hlen : 1 < (m0 :: m1 :: tl).length := by simp
  simp only [extractJSONFields, hm, applyPathLabels, List.foldl, applyPathLabel, hr, hs,
    if_pos hlen, List.getD, List.get?, List.length_cons, lt_irrefl]
  simp

/-- A path-label regex capturing xyz out of the path nodes_xyz. -/
def rxNode : Regex :=
  ⟨fun s => s = "nodes_xyz",
   fun s => if s = "nodes_xyz" then ["nodes_xyz", "xyz"] else []⟩

/-- A configuration carrying only the node path label. -/
def cfgNode : Cfg := { rcfg with pathlabels := [("node", rxNode)] }

/-- Witness for C2: the match consumes the whole path, so the metric
name falls back to the label name and the pair (node, xyz) is pushed
around the dispatch of the leaf. -/
theorem c2_pathlabel_capture_witness :
    extractJSONFields cfgNode st0 "" (.cons "nodes_xyz" (.int 7) .nil) =
      extractJSONFields cfgNode
        (delLastLabels (walkValue cfgNode (addLabel cfgNode st0 "node" "xyz")
          "node" (.int 7)) 1) "" .nil :=
  (c2_pathlabel_capture cfgNode st0 "" "nodes_xyz" (.int 7) .nil "node" "nodes_xyz"
      "xyz" [] rxNode (by decide) rfl (by decide)).trans (by decide)

/-! ### C6 and C10: one-shot value-label extraction -/

theorem adel_keys_sub {α : Type} (m : List (String × α)) (k k2 : String)
    (h : k2 ∈ (adel m k).map Prod.fst) : k2 ∈ m.map Prod.fst := by
  induction m with
  | nil => simp [adel] at h
  | cons p tl ih =>
    by_cases hk : p.1 = k
    · simp only [adel, if_pos hk] at h
      exact List.mem_cons.mpr (.inr (ih h))
    · simp only [adel, if_neg hk, List.map, List.mem_cons] at h ⊢
      rcases h with he | htl
      · exact .inl he
      · exact .inr (ih htl)

theorem matchLabel_mem (name : String) (rm : List (String × Regex))
    (h : matchLabel name rm ≠ "") : matchLabel name rm ∈ rm.map Prod.fst := by
  unfold matchLabel at h ⊢
  cases hf : rm.find? (fun p => p.2.matchString name) with
  | none => simp [hf] at h
  | some p =>
    simp only [hf]
    exact List.mem_map.mpr ⟨p, List.mem_of_find?_eq_some hf, rfl⟩

theorem addLabel_labels (cfg : Cfg) (st : St) (name value : String) :
    (addLabel cfg st name value).labels = st.labels ++ [labName cfg name] := rfl

theorem extractLabelScalar_labels (cfg : Cfg) (st : St) (label : String) (v : JValue) :
    (extractLabelScalar cfg st label v).labels = st.labels ∨
    (extractLabelScalar cfg st label v).labels = st.labels ++ [labName cfg label] := by
  cases v <;> simp [extractLabelScalar, addLabel_labels]

-- Keys of the pending map only shrink along extractLabel.
mutual
theorem extractLabel_keys_sub (cfg : Cfg) (metric : String) (st : St)
    (rm : List (String × Regex)) :
    (o : JObject) → ∀ k2 ∈ (extractLabel cfg metric st rm o).2.map Prod.fst,
      k2 ∈ rm.map Prod.fst
  | .nil => by
    intro k2 h
    simp only [extractLabel] at h
    exact h
  | .cons k v rest => by
    intro k2 h
    by_cases hz : rm.length = 0
    · simp only [extractLabel, if_pos hz] at h
      exact h
    · by_cases hne : matchLabel (buildName metric k) rm ≠ ""
      · simp only [extractLabel, if_neg hz, if_pos hne] at h
        exact adel_keys_sub rm _ k2 (extractLabel_keys_sub cfg metric _ _ rest k2 h)
      · simp only [extractLabel, if_neg hz, if_neg hne] at h
        have h2 := extractLabel_keys_sub cfg metric
          (extractLabelDescend cfg (buildName metric k) st rm v).1
          (extractLabelDescend cfg (buildName metric k) st rm v).2 rest k2 h
        exact extractLabelDescend_keys_sub cfg (buildName metric k) st rm v k2 h2

theorem extractLabelDescend_keys_sub (cfg : Cfg) (newMetric : String) (st : St)
    (rm : List (String × Regex)) :
    (v : JValue) → ∀ k2 ∈ (extractLabelDescend cfg newMetric st rm v).2.map Prod.fst,
      k2 ∈ rm.map Prod.fst
  | .obj vv => by
    intro k2 h
    exact extractLabel_keys_sub cfg newMetric st rm vv k2 h
  | .str s pr => by intro k2 h; simpa [extractLabelDescend] using h
  | .int i => by intro k2 h; simpa [extractLabelDescend] using h
  | .num q => by intro k2 h; simpa [extractLabelDescend] using h
  | .bool b => by intro k2 h; simpa [extractLabelDescend] using h
  | .arr a => by intro k2 h; simpa [extractLabelDescend] using h
  | .null => by intro k2 h; simpa [extractLabelDescend] using h
end

-- A label name that no pending key can produce and that is not yet on
-- the label stack never appears on the stack during extractLabel.
mutual
theorem extractLabel_labels_notmem (cfg : Cfg) (metric : String) (st : St)
    (rm : List (String × Regex)) (lab : String) :
    (o : JObject) → (∀ k2 ∈ rm.map Prod.fst, labName cfg k2 ≠ lab) → lab ∉ st.labels →
      lab ∉ (extractLabel cfg metric st rm o).1.labels
  | .nil => by
    intro _ hst
    simpa [extractLabel] using hst
  | .cons k v rest => by
    intro hk hst
    by_cases hz : rm.length = 0
    · simp only [extractLabel, if_pos hz]
      exact hst
    · by_cases hne : matchLabel (buildName metric k) rm ≠ ""
      · simp only [extractLabel, if_neg hz, if_pos hne]
        have hlmem : matchLabel (buildName metric k) rm ∈ rm.map Prod.fst :=
          matchLabel_mem _ _ hne
        have hlab2 : ∀ k2 ∈ (adel rm (matchLabel (buildName metric k) rm)).map Prod.fst,
            labName cfg k2 ≠ lab :=
          fun k2 hk2 => hk k2 (adel_keys_sub rm _ k2 hk2)
        have hst2 : lab ∉ (extractLabelScalar cfg st (matchLabel (buildName metric k) rm)
            v).labels := by
          rcases extractLabelScalar_labels cfg st (matchLabel (buildName metric k) rm) v with
            hsc | hsc
          · rw [hsc]; exact hst
          · rw [hsc]
            intro hmem
            rcases List.mem_append.mp hmem with hmem | hmem
            · exact hst hmem
            · exact hk _ hlmem (List.mem_singleton.mp hmem).symm
        exact extractLabel_labels_notmem cfg metric _ _ lab rest hlab2 hst2
      · simp only [extractLabel, if_neg hz, if_neg hne]
        have h1 := extractLabelDescend_labels_notmem cfg (buildName metric k) st rm lab v hk hst
        have hkeys : ∀ k2 ∈ (extractLabelDescend cfg (buildName metric k) st rm v).2.map
            Prod.fst, labName cfg k2 ≠ lab :=
          fun k2 hk2 => hk k2 (extractLabelDescend_keys_sub cfg (buildName metric k) st rm v k2 hk2)
        exact extractLabel_labels_notmem cfg metric _ _ lab rest hkeys h1

theorem extractLabelDescend_labels_notmem (cfg : Cfg) (newMetric : String) (st : St)
    (rm : List (String × Regex)) (lab : String) :
    (v : JValue) → (∀ k2 ∈ rm.map Prod.fst, labName cfg k2 ≠ lab) → lab ∉ st.labels →
      lab ∉ (extractLabelDescend cfg newMetric st rm v).1.labels
  | .obj vv => by
    intro hk hst
    exact extractLabel_labels_notmem cfg newMetric st rm lab vv hk hst
  | .str s pr => by intro _ hst; simpa [extractLabelDescend] using hst
  | .int i => by intro _ hst; simpa [extractLabelDescend] using hst
  | .num q => by intro _ hst; simpa [extractLabelDescend] using hst
  | .bool b => by intro _ hst; simpa [extractLabelDescend] using hst
  | .arr a => by intro _ hst; simpa [extractLabelDescend] using hst
  | .null => by intro _ hst; simpa [extractLabelDescend] using hst
end

/-- C6: one step of value-label extraction.  With the pending set empty
the walk does nothing.  A field whose dotted path matches a pending
label records the field value through the scalar switch (strings
verbatim, ints in decimal, floats through FormatFloat, booleans as
true/false) and removes the label from the pending set before
continuing; a non-matching field only descends when its value is an
object; and the URL loop stops as soon as a walked document empties the
pending set. -/
theorem c6_valuelabel_extraction (cfg : Cfg) (metric k : String) (st : St)
    (rm : List (String × Regex)) (v : JValue) (rest o : JObject) (l : String) :
    (extractLabel cfg metric st [] o = (st, [])) ∧
    (rm ≠ [] → matchLabel (buildName metric k) rm = l → l ≠ "" →
      extractLabel cfg metric st rm (.cons k v rest) =
        extractLabel cfg metric (extractLabelScalar cfg st l v) (adel rm l) rest) ∧
    ((∀ s pr, extractLabelScalar cfg st l (.str s pr) = addLabel cfg st l s) ∧
     (∀ i, extractLabelScalar cfg st l (.int i) = addLabel cfg st l (toString i)) ∧
     (∀ q, extractLabelScalar cfg st l (.num q) = addLabel cfg st l (cfg.formatFloat q)) ∧
     (∀ b, extractLabelScalar cfg st l (.bool b) =
        addLabel cfg st l (if b then "true" else "false"))) ∧
    (rm ≠ [] → matchLabel (buildName metric k) rm = "" →
      ((∀ o2, v = .obj o2 →
        extractLabel cfg metric st rm (.cons k v rest) =
          extractLabel cfg metric (extractLabel cfg (buildName metric k) st rm o2).1
            (extractLabel cfg (buildName metric k) st rm o2).2 rest) ∧
       ((∀ o2, v ≠ .obj o2) →
        extractLabel cfg metric st rm (.cons k v rest) =
          extractLabel cfg metric st rm rest))) ∧
    (∀ (d : JObject) (docs : List (Option JObject)),
      (extractLabel cfg "" st rm d).2 = [] →
      collectLabels cfg st rm (some d :: docs) = extractLabel cfg "" st rm d) := by
  refine ⟨?_, ?_, ⟨fun s pr => rfl, fun i => rfl, fun q => rfl, fun b => rfl⟩, ?_, ?_⟩
  · cases o with
    | nil => simp [extractLabel]
    | cons k2 v2 rest2 => simp [extractLabel]
  · intro hne hl hlne
    subst hl
    have hz : ¬ rm.length = 0 := by simpa [List.length_eq_zero] using hne
    simp only [extractLabel, if_neg hz, if_pos hlne]
  · intro hne hm
    have hz : ¬ rm.length = 0 := by simpa [List.length_eq_zero] using hne
    constructor
    · intro o2 hv
      subst hv
      simp [extractLabel, if_neg hz, hm, extractLabelDescend]
    · intro hno
      have hd : extractLabelDescend cfg (buildName metric k) st rm v = (st, rm) := by
        cases v with
        | obj o2 => exact absurd rfl (hno o2)
        | str s pr => rfl
        | int i => rfl
        | num q => rfl
        | bool b => rfl
        | arr a => rfl
        | null => rfl
      simp [extractLabel, if_neg hz, hm, hd]
  · intro d docs h
    simp only [collectLabels, h, List.length_nil]
    rfl

/-- A regex matching exactly the path vlabel. -/
def rxVlabel : Regex := ⟨fun s => s = "vlabel", fun _ => []⟩

/-- A pending value-label map with one entry. -/
def rmV : List (String × Regex) := [("cluster", rxVlabel)]

/-- Witness for C6: a matching string field is consumed into the label
pair (cluster, value2) and the pending entry is deleted. -/
theorem c6_valuelabel_extraction_witness :
    (extractLabel rcfg "" st0 rmV (.cons "vlabel" (.str "value2" .fail) .nil) =
      extractLabel rcfg "" (extractLabelScalar rcfg st0 "cluster" (.str "value2" .fail))
        (adel rmV "cluster") .nil) ∧
    extractLabelScalar rcfg st0 "cluster" (.str "value2" .fail) =
      addLabel rcfg st0 "cluster" "value2" :=
  ⟨(c6_valuelabel_extraction rcfg "" "vlabel" st0 rmV (.str "value2" .fail) .nil .nil
      "cluster").2.1 (by simp [rmV]) (by decide) (by decide),
   (c6_valuelabel_extraction rcfg "" "vlabel" st0 rmV (.str "value2" .fail) .nil .nil
      "cluster").2.2.1.1 "value2" .fail⟩

/-- C10: a pending label whose first matching field has a non-scalar
value (object, array or null) is deleted from the pending set with no
label recorded, and a label name that no remaining pending key can
produce never appears on the label stack afterwards, so the label stays
absent from every emitted metric. -/
theorem c10_pending_label_lost_on_nonscalar (cfg : Cfg) (metric k : String) (st : St)
    (rm : List (String × Regex)) (v : JValue) (rest : JObject) (l : String) :
    (rm ≠ [] → matchLabel (buildName metric k) rm = l → l ≠ "" →
      (v = .null ∨ (∃ o2, v = .obj o2) ∨ (∃ a, v = .arr a)) →
      extractLabel cfg metric st rm (.cons k v rest) =
        extractLabel cfg metric st (adel rm l) rest) ∧
    (∀ (o : JObject) (lab : String),
      (∀ k2 ∈ rm.map Prod.fst, labName cfg k2 ≠ lab) → lab ∉ st.labels →
      lab ∉ (extractLabel cfg metric st rm o).1.labels) := by
  constructor
  · intro hne hl hlne hv
    subst hl
    have hz : ¬ rm.length = 0 := by simpa [List.length_eq_zero] using hne
    have hsc : extractLabelScalar cfg st (matchLabel (buildName metric k) rm) v = st := by
      rcases hv with hv | ⟨o2, hv⟩ | ⟨a, hv⟩ <;> subst hv <;> rfl
    simp only [extractLabel, if_neg hz, if_pos hlne, hsc]
  · intro o lab hk hst
    exact extractLabel_labels_notmem cfg metric st rm lab o hk hst

/-- Witness for C10: the pending cluster label matches an object-valued
field, is deleted without recording a label, and a name no pending key
produces stays off the label stack. -/
theorem c10_pending_label_lost_on_nonscalar_witness :
    (extractLabel rcfg "" st0 rmV (.cons "vlabel" (.obj (.cons "x" (.int 1) .nil)) .nil) =
      extractLabel rcfg "" st0 (adel rmV "cluster") .nil) ∧
    "zz" ∉ (extractLabel rcfg "" st0 rmV (.cons "vlabel" (.str "v" .fail) .nil)).1.labels :=
  ⟨(c10_pending_label_lost_on_nonscalar rcfg "" "vlabel" st0 rmV
      (.obj (.cons "x" (.int 1) .nil)) .nil "cluster").1 (by simp [rmV]) (by decide)
      (by decide) (.inr (.inl ⟨_, rfl⟩)),
   (c10_pending_label_lost_on_nonscalar rcfg "" "vlabel" st0 rmV
      (.str "v" .fail) .nil "cluster").2 (.cons "vlabel" (.str "v" .fail) .nil) "zz"
      (by decide) (by decide)⟩

/-! ### State-effect lemmas for the part_001 walker -/

/-- st2 extends st by pushing L and V onto the two label slices, leaving
every other field unchanged. -/
def ExtendsBy (st st2 : St) (L V : List String) : Prop :=
  st2.labels = st.labels ++ L ∧ st2.labelvalues = st.labelvalues ++ V ∧
  st2.up = st.up ∧ st2.gauges = st.gauges ∧ st2.updated = st.updated ∧
  st2.exist = st.exist ∧ st2.nextrefresh = st.nextrefresh ∧ st2.obs = st.obs ∧
  st2.parseLog = st.parseLog

theorem extendsBy_rfl (st : St) : ExtendsBy st st [] [] := by
  unfold ExtendsBy
  simp

theorem extendsBy_trans {st st2 st3 : St} {L V L2 V2 : List String}
    (h1 : ExtendsBy st st2 L V) (h2 : ExtendsBy st2 st3 L2 V2) :
    ExtendsBy st st3 (L ++ L2) (V ++ V2) := by
  obtain ⟨a1, a2, a3, a4, a5, a6, a7, a8, a9⟩ := h1
  obtain ⟨b1, b2, b3, b4, b5, b6, b7, b8, b9⟩ := h2
  exact ⟨by rw [b1, a1, List.append_assoc], by rw [b2, a2, List.append_assoc],
    by rw [b3, a3], by rw [b4, a4], by rw [b5, a5], by rw [b6, a6],
    by rw [b7, a7], by rw [b8, a8], by rw [b9, a9]⟩

theorem addLabel_extends (cfg : Cfg) (st : St) (name value : String) :
    ExtendsBy st (addLabel cfg st name value) [labName cfg name] [value] := by
  unfold ExtendsBy addLabel addLabel0
  simp

theorem applyPathLabel_extends (cfg : Cfg) (acc : St × String) (label : String) :
    ∃ L V : List String, L.length = V.length ∧ L.length ≤ 1 ∧
      ExtendsBy acc.1 (applyPathLabel cfg acc label).1 L V := by
  unfold applyPathLabel
  cases alookup cfg.pathlabels label with
  | none => exact ⟨[], [], rfl, by simp, extendsBy_rfl acc.1⟩
  | some r =>
    by_cases h : 1 < (r.findStringSubmatch acc.2).length
    · refine ⟨[labName cfg label], [(r.findStringSubmatch acc.2).getD 1 ""], rfl, by simp, ?_⟩
      simp only [if_pos h]
      exact addLabel_extends cfg acc.1 label _
    · exact ⟨[], [], rfl, by simp, by simp only [if_neg h]; exact extendsBy_rfl acc.1⟩

theorem applyPathLabels_extends (cfg : Cfg) (labels : List String) :
    ∀ (st : St) (nm : String), ∃ L V : List String, L.length = V.length ∧
      ExtendsBy st (applyPathLabels cfg st nm labels).1 L V := by
  induction labels with
  | nil => intro st nm; exact ⟨[], [], rfl, extendsBy_rfl st⟩
  | cons l ls ih =>
    intro st nm
    have hstep : applyPathLabels cfg st nm (l :: ls) =
        applyPathLabels cfg (applyPathLabel cfg (st, nm) l).1
          (applyPathLabel cfg (st, nm) l).2 ls := rfl
    obtain ⟨L1, V1, hlen1, _, hx1⟩ := applyPathLabel_extends cfg (st, nm) l
    obtain ⟨L2, V2, hlen2, hx2⟩ := ih (applyPathLabel cfg (st, nm) l).1
      (applyPathLabel cfg (st, nm) l).2
    exact ⟨L1 ++ L2, V1 ++ V2, by simp [hlen1, hlen2], hstep ▸ extendsBy_trans hx1 hx2⟩

/-- The capture-coherence condition of the path-label configuration: at
every node of a walk, the path-label loop pushes exactly one pair per
matched label, i.e. every matched regex still yields its capture-group
submatch on the working metric name at the moment it is processed
(every loop iteration pushes at most one pair, so equality of the
counts says exactly that no matched label fails to push). -/
def CaptureCoherent (cfg : Cfg) : Prop :=
  ∀ (st : St) (nm : String),
    (applyPathLabels cfg st nm (matchLabels nm cfg.pathlabels)).1.labels.length =
      st.labels.length + (matchLabels nm cfg.pathlabels).length

/-- When at most one path label ever matches a node, the first loop
iteration re-runs FindStringSubmatch on the unchanged working name that
MatchString just approved, so a configuration of matching regexes with
a capture group is capture coherent. -/
theorem captureCoherent_of_single (cfg : Cfg)
    (hnd : (cfg.pathlabels.map Prod.fst).Nodup)
    (hone : ∀ s : String, (matchLabels s cfg.pathlabels).length ≤ 1)
    (hcap : ∀ p ∈ cfg.pathlabels, ∀ s : String, p.2.matchString s = true →
      1 < (p.2.findStringSubmatch s).length) :
    CaptureCoherent cfg := by
  intro st nm
  cases hm : matchLabels nm cfg.pathlabels with
  | nil => simp [applyPathLabels]
  | cons l ls =>
    have hls : ls = [] := by
      have h1 := hone nm
      rw [hm] at h1
      simpa using h1
    subst hls
    have hl2 : l ∈ (cfg.pathlabels.filter (fun p => p.2.matchString nm)).map Prod.fst := by
      unfold matchLabels at hm
      rw [hm]
      exact List.mem_singleton.mpr rfl
    obtain ⟨p, hpf, hpl⟩ := List.mem_map.mp hl2
    have hpmem : p ∈ cfg.pathlabels := List.mem_of_mem_filter hpf
    have hpmatch : p.2.matchString nm = true := by
      simpa using List.of_mem_filter hpf
    have hpair : (l, p.2) ∈ cfg.pathlabels := by
      have hpp : (p.1, p.2) ∈ cfg.pathlabels := by simpa using hpmem
      rw [hpl] at hpp
      exact hpp
    have halo : alookup cfg.pathlabels l = some p.2 :=
      alookup_of_mem_nodup cfg.pathlabels l p.2 hpair hnd
    have hcap2 := hcap p hpmem nm hpmatch
    have hstep : applyPathLabels cfg st nm [l] = applyPathLabel cfg (st, nm) l := rfl
    rw [hstep]
    unfold applyPathLabel
    rw [halo]
    simp only [if_pos hcap2, addLabel, addLabel0, List.length_append, List.length_cons,
      List.length_nil, List.length_singleton]

/-- A one-entry path-label configuration lets at most one label match
any node. -/
theorem matchLabels_singleton_le_one (name : String) (p : String × Regex) :
    (matchLabels name [p]).length ≤ 1 := by
  unfold matchLabels
  cases h : p.2.matchString name <;> simp [List.filter_cons, h]

/-- The fields of the state addGaugeCore can change: only gauges,
updated, exist and obs move, and an appended observation carries the
current label slices. -/
theorem addGaugeCore_state (cfg : Cfg) (st : St) (name : String) (value : ℚ)
    (help : String) :
    (addGaugeCore cfg st name value help).labels = st.labels ∧
    (addGaugeCore cfg st name value help).labelvalues = st.labelvalues ∧
    (addGaugeCore cfg st name value help).up = st.up ∧
    (addGaugeCore cfg st name value help).nextrefresh = st.nextrefresh ∧
    (addGaugeCore cfg st name value help).parseLog = st.parseLog ∧
    ((addGaugeCore cfg st name value help).obs = st.obs ∨
      (addGaugeCore cfg st name value help).obs =
        st.obs ++ [⟨name, value, st.labels, st.labelvalues⟩]) := by
  unfold addGaugeCore
  by_cases hm : matchMetric cfg name
  · by_cases hg : (alookup st.gauges name).isSome
    · simp [hm, hg]
    · simp [hm, hg]
  · simp [hm]

theorem addGauge_state (cfg : Cfg) (st : St) (name : String) (value : ℚ)
    (help : String) :
    (addGauge cfg st name value help).labels = st.labels ∧
    (addGauge cfg st name value help).labelvalues = st.labelvalues ∧
    (addGauge cfg st name value help).up = st.up ∧
    (addGauge cfg st name value help).nextrefresh = st.nextrefresh ∧
    (addGauge cfg st name value help).parseLog = st.parseLog ∧
    ((addGauge cfg st name value help).obs = st.obs ∨
      (addGauge cfg st name value help).obs =
        st.obs ++ [⟨if cfg.lowercase then golower name else name, value,
          st.labels, st.labelvalues⟩]) :=
  addGaugeCore_state cfg st _ value help

theorem delLastLabels_state (st : St) (num : Nat) :
    (delLastLabels st num).up = st.up ∧
    (delLastLabels st num).gauges = st.gauges ∧
    (delLastLabels st num).updated = st.updated ∧
    (delLastLabels st num).exist = st.exist ∧
    (delLastLabels st num).nextrefresh = st.nextrefresh ∧
    (delLastLabels st num).obs = st.obs ∧
    (delLastLabels st num).parseLog = st.parseLog := by
  unfold delLastLabels
  by_cases h : num ≤ st.labels.length
  · simp [h]
  · simp [h]

theorem logParse_state (st : St) (nm : String) :
    (logParse st nm).labels = st.labels ∧ (logParse st nm).labelvalues = st.labelvalues ∧
    (logParse st nm).up = st.up ∧ (logParse st nm).obs = st.obs := ⟨rfl, rfl, rfl, rfl⟩

theorem delLastLabels_balance (st : St) (num : Nat)
    (hb : st.labels.length = st.labelvalues.length) :
    (delLastLabels st num).labels.length = (delLastLabels st num).labelvalues.length := by
  unfold delLastLabels
  by_cases h : num ≤ st.labels.length
  · rw [if_pos h]
    simp only [List.length_take]
    omega
  · rw [if_neg h]
    exact hb

theorem walkValue_str_fail (cfg : Cfg) (st : St) (nm vv : String)
    (hg : 2 < vv.utf8ByteSize ∧ goByte0 vv = some '{') :
    walkValue cfg st nm (.str vv .fail) = logParse st nm := by
  simp only [walkValue, if_pos hg]

theorem walkValue_str_ok (cfg : Cfg) (st : St) (nm vv : String) (stats : JObject)
    (hg : 2 < vv.utf8ByteSize ∧ goByte0 vv = some '{') :
    walkValue cfg st nm (.str vv (.ok stats)) =
      extractJSONFields cfg st (jmxAdjust cfg nm stats) stats := by
  simp only [walkValue, if_pos hg]

theorem walkValue_str_neg (cfg : Cfg) (st : St) (nm vv : String) (parsed : JParse)
    (hg : ¬ (2 < vv.utf8ByteSize ∧ goByte0 vv = some '{')) :
    walkValue cfg st nm (.str vv parsed) = st := by
  cases parsed with
  | fail => simp only [walkValue, if_neg hg]
  | ok stats => simp only [walkValue, if_neg hg]

theorem walkValue_obj (cfg : Cfg) (st : St) (nm : String) (vv : JObject) :
    walkValue cfg st nm (.obj vv) = extractJSONFields cfg st (jmxAdjust cfg nm vv) vv := by
  simp only [walkValue]

theorem walkValue_arr (cfg : Cfg) (st : St) (nm : String) (vv : JArray) :
    walkValue cfg st nm (.arr vv) = extractJSONItems cfg st nm 0 vv := by
  simp only [walkValue]

theorem extractJSONFields_cons (cfg : Cfg) (st : St) (metric k : String) (v : JValue)
    (rest : JObject) :
    extractJSONFields cfg st metric (.cons k v rest) =
      extractJSONFields cfg
        (if 0 < (matchLabels (buildName metric k) cfg.pathlabels).length then
          delLastLabels
            (walkValue cfg
              (applyPathLabels cfg st (buildName metric k)
                (matchLabels (buildName metric k) cfg.pathlabels)).1
              (applyPathLabels cfg st (buildName metric k)
                (matchLabels (buildName metric k) cfg.pathlabels)).2 v)
            (matchLabels (buildName metric k) cfg.pathlabels).length
        else
          walkValue cfg
            (applyPathLabels cfg st (buildName metric k)
              (matchLabels (buildName metric k) cfg.pathlabels)).1
            (applyPathLabels cfg st (buildName metric k)
              (matchLabels (buildName metric k) cfg.pathlabels)).2 v)
        metric rest := by
  simp only [extractJSONFields, applyPathLabels]

theorem extractJSONItems_acons (cfg : Cfg) (st : St) (metric : String) (k : Nat)
    (v : JValue) (rest : JArray) :
    extractJSONItems cfg st metric k (.acons v rest) =
      extractJSONItems cfg
        (if 0 < (matchLabels (buildName metric (toString k)) cfg.pathlabels).length then
          delLastLabels
            (walkValue cfg
              (applyPathLabels cfg st (buildName metric (toString k))
                (matchLabels (buildName metric (toString k)) cfg.pathlabels)).1
              (applyPathLabels cfg st (buildName metric (toString k))
                (matchLabels (buildName metric (toString k)) cfg.pathlabels)).2 v)
            (matchLabels (buildName metric (toString k)) cfg.pathlabels).length
        else
          walkValue cfg
            (applyPathLabels cfg st (buildName metric (toString k))
              (matchLabels (buildName metric (toString k)) cfg.pathlabels)).1
            (applyPathLabels cfg st (buildName metric (toString k))
              (matchLabels (buildName metric (toString k)) cfg.pathlabels)).2 v)
        metric (k + 1) rest := by
  simp only [extractJSONItems, applyPathLabels]

-- Set A of the walker invariants: the availability gauge is never
-- touched by a walk, the two label slices keep equal lengths, and every
-- recorded observation carries equal-length slices.
mutual
theorem walkFieldsA (cfg : Cfg) :
    (o : JObject) → ∀ (metric : String) (st : St),
      ((extractJSONFields cfg st metric o).up = st.up) ∧
      (st.labels.length = st.labelvalues.length →
        ((extractJSONFields cfg st metric o).labels.length =
          (extractJSONFields cfg st metric o).labelvalues.length) ∧
        (∀ ob ∈ (extractJSONFields cfg st metric o).obs,
          ob ∈ st.obs ∨ ob.labels.length = ob.labelvalues.length))
  | .nil => by
    intro metric st
    exact ⟨rfl, fun hb => ⟨hb, fun ob hob => .inl hob⟩⟩
  | .cons k v rest => by
    intro metric st
    rw [extractJSONFields_cons cfg st metric k v rest]
    obtain ⟨A, B, hAB, hx1, hx2, hx3, _, _, _, _, hx8, _⟩ :=
      applyPathLabels_extends cfg (matchLabels (buildName metric k) cfg.pathlabels)
        st (buildName metric k)
    obtain ⟨hv_up, hv_bal⟩ := walkValueA cfg v
      (applyPathLabels cfg st (buildName metric k)
        (matchLabels (buildName metric k) cfg.pathlabels)).2
      (applyPathLabels cfg st (buildName metric k)
        (matchLabels (buildName metric k) cfg.pathlabels)).1
    set st1 := walkValue cfg
      (applyPathLabels cfg st (buildName metric k)
        (matchLabels (buildName metric k) cfg.pathlabels)).1
      (applyPathLabels cfg st (buildName metric k)
        (matchLabels (buildName metric k) cfg.pathlabels)).2 v with hst1
    set st2 := if 0 < (matchLabels (buildName metric k) cfg.pathlabels).length then
        delLastLabels st1 (matchLabels (buildName metric k) cfg.pathlabels).length
      else st1 with hst2
    have hst2up : st2.up = st1.up := by
      rw [hst2]
      by_cases hc : 0 < (matchLabels (buildName metric k) cfg.pathlabels).length
      · rw [if_pos hc]
        exact (delLastLabels_state st1 _).1
      · rw [if_neg hc]
    have hst2obs : st2.obs = st1.obs := by
      rw [hst2]
      by_cases hc : 0 < (matchLabels (buildName metric k) cfg.pathlabels).length
      · rw [if_pos hc]
        exact (delLastLabels_state st1 _).2.2.2.2.2.1
      · rw [if_neg hc]
    obtain ⟨hr_up, hr_bal⟩ := walkFieldsA cfg rest metric st2
    constructor
    · rw [hr_up, hst2up, hv_up, hx3]
    · intro hb
      have hpb : (applyPathLabels cfg st (buildName metric k)
          (matchLabels (buildName metric k) cfg.pathlabels)).1.labels.length =
          (applyPathLabels cfg st (buildName metric k)
            (matchLabels (buildName metric k) cfg.pathlabels)).1.labelvalues.length := by
        rw [hx1, hx2]
        simp [hb, hAB]
      obtain ⟨hv_bal2, hv_obs⟩ := hv_bal hpb
      have hst2bal : st2.labels.length = st2.labelvalues.length := by
        rw [hst2]
        by_cases hc : 0 < (matchLabels (buildName metric k) cfg.pathlabels).length
        · rw [if_pos hc]
          exact delLastLabels_balance st1 _ hv_bal2
        · rw [if_neg hc]
          exact hv_bal2
      obtain ⟨hf_bal, hf_obs⟩ := hr_bal hst2bal
      refine ⟨hf_bal, fun ob hob => ?_⟩
      rcases hf_obs ob hob with hin | hlen
      · rw [hst2obs] at hin
        rcases hv_obs ob hin with hin2 | hlen
        · rw [hx8] at hin2
          exact .inl hin2
        · exact .inr hlen
      · exact .inr hlen

theorem walkValueA (cfg : Cfg) :
    (v : JValue) → ∀ (nm : String) (st : St),
      ((walkValue cfg st nm v).up = st.up) ∧
      (st.labels.length = st.labelvalues.length →
        ((walkValue cfg st nm v).labels.length = (walkValue cfg st nm v).labelvalues.length) ∧
        (∀ ob ∈ (walkValue cfg st nm v).obs,
          ob ∈ st.obs ∨ ob.labels.length = ob.labelvalues.length))
  | .str vv parsed => by
    intro nm st
    by_cases hg : 2 < vv.utf8ByteSize ∧ goByte0 vv = some '{'
    · cases parsed with
      | fail =>
        rw [walkValue_str_fail cfg st nm vv hg]
        exact ⟨rfl, fun hb => ⟨hb, fun ob hob => .inl hob⟩⟩
      | ok stats =>
        rw [walkValue_str_ok cfg st nm vv stats hg]
        exact walkFieldsA cfg stats (jmxAdjust cfg nm stats) st
    · rw [walkValue_str_neg cfg st nm vv parsed hg]
      exact ⟨rfl, fun hb => ⟨hb, fun ob hob => .inl hob⟩⟩
  | .int vv => by
    intro nm st
    have he : walkValue cfg st nm (.int vv) =
        addGauge cfg st nm ((vv : ℚ)) (nm ++ helpSuffix) := by simp only [walkValue]
    rw [he]
    obtain ⟨h1, h2, h3, _, _, h6⟩ := addGauge_state cfg st nm ((vv : ℚ)) (nm ++ helpSuffix)
    refine ⟨h3, fun hb => ⟨by rw [h1, h2, hb], fun ob hob => ?_⟩⟩
    rcases h6 with h6 | h6 <;> rw [h6] at hob
    · exact .inl hob
    · rcases List.mem_append.mp hob with hin | hone
      · exact .inl hin
      · rw [List.mem_singleton.mp hone]
        exact .inr hb
  | .num vv => by
    intro nm st
    have he : walkValue cfg st nm (.num vv) = addGauge cfg st nm vv (nm ++ helpSuffix) := by
      simp only [walkValue]
    rw [he]
    obtain ⟨h1, h2, h3, _, _, h6⟩ := addGauge_state cfg st nm vv (nm ++ helpSuffix)
    refine ⟨h3, fun hb => ⟨by rw [h1, h2, hb], fun ob hob => ?_⟩⟩
    rcases h6 with h6 | h6 <;> rw [h6] at hob
    · exact .inl hob
    · rcases List.mem_append.mp hob with hin | hone
      · exact .inl hin
      · rw [List.mem_singleton.mp hone]
        exact .inr hb
  | .bool vv => by
    intro nm st
    cases vv with
    | true =>
      have he : walkValue cfg st nm (.bool true) =
          addGauge cfg st nm 1 (nm ++ helpSuffix) := by simp only [walkValue]; simp
      rw [he]
      obtain ⟨h1, h2, h3, _, _, h6⟩ := addGauge_state cfg st nm 1 (nm ++ helpSuffix)
      refine ⟨h3, fun hb => ⟨by rw [h1, h2, hb], fun ob hob => ?_⟩⟩
      rcases h6 with h6 | h6 <;> rw [h6] at hob
      · exact .inl hob
      · rcases List.mem_append.mp hob with hin | hone
        · exact .inl hin
        · rw [List.mem_singleton.mp hone]
          exact .inr hb
    | false =>
      have he : walkValue cfg st nm (.bool false) =
          addGauge cfg st nm 0 (nm ++ helpSuffix) := by simp only [walkValue]; rfl
      rw [he]
      obtain ⟨h1, h2, h3, _, _, h6⟩ := addGauge_state cfg st nm 0 (nm ++ helpSuffix)
      refine ⟨h3, fun hb => ⟨by rw [h1, h2, hb], fun ob hob => ?_⟩⟩
      rcases h6 with h6 | h6 <;> rw [h6] at hob
      · exact .inl hob
      · rcases List.mem_append.mp hob with hin | hone
        · exact .inl hin
        · rw [List.mem_singleton.mp hone]
          exact .inr hb
  | .obj vv => by
    intro nm st
    rw [walkValue_obj cfg st nm vv]
    exact walkFieldsA cfg vv (jmxAdjust cfg nm vv) st
  | .arr vv => by
    intro nm st
    rw [walkValue_arr cfg st nm vv]
    exact walkItemsA cfg vv nm 0 st
  | .null => by
    intro nm st
    exact ⟨rfl, fun hb => ⟨hb, fun ob hob => .inl hob⟩⟩

theorem walkItemsA (cfg : Cfg) :
    (a : JArray) → ∀ (metric : String) (k : Nat) (st : St),
      ((extractJSONItems cfg st metric k a).up = st.up) ∧
      (st.labels.length = st.labelvalues.length →
        ((extractJSONItems cfg st metric k a).labels.length =
          (extractJSONItems cfg st metric k a).labelvalues.length) ∧
        (∀ ob ∈ (extractJSONItems cfg st metric k a).obs,
          ob ∈ st.obs ∨ ob.labels.length = ob.labelvalues.length))
  | .anil => by
    intro metric k st
    exact ⟨rfl, fun hb => ⟨hb, fun ob hob => .inl hob⟩⟩
  | .acons v rest => by
    intro metric k st
    rw [extractJSONItems_acons cfg st metric k v rest]
    obtain ⟨A, B, hAB, hx1, hx2, hx3, _, _, _, _, hx8, _⟩ :=
      applyPathLabels_extends cfg
        (matchLabels (buildName metric (toString k)) cfg.pathlabels)
        st (buildName metric (toString k))
    obtain ⟨hv_up, hv_bal⟩ := walkValueA cfg v
      (applyPathLabels cfg st (buildName metric (toString k))
        (matchLabels (buildName metric (toString k)) cfg.pathlabels)).2
      (applyPathLabels cfg st (buildName metric (toString k))
        (matchLabels (buildName metric (toString k)) cfg.pathlabels)).1
    set st1 := walkValue cfg
      (applyPathLabels cfg st (buildName metric (toString k))
        (matchLabels (buildName metric (toString k)) cfg.pathlabels)).1
      (applyPathLabels cfg st (buildName metric (toString k))
        (matchLabels (buildName metric (toString k)) cfg.pathlabels)).2 v with hst1
    set st2 := if 0 < (matchLabels (buildName metric (toString k)) cfg.pathlabels).length then
        delLastLabels st1 (matchLabels (buildName metric (toString k)) cfg.pathlabels).length
      else st1 with hst2
    have hst2up : st2.up = st1.up := by
      rw [hst2]
      by_cases hc : 0 < (matchLabels (buildName metric (toString k)) cfg.pathlabels).length
      · rw [if_pos hc]
        exact (delLastLabels_state st1 _).1
      · rw [if_neg hc]
    have hst2obs : st2.obs = st1.obs := by
      rw [hst2]
      by_cases hc : 0 < (matchLabels (buildName metric (toString k)) cfg.pathlabels).length
      · rw [if_pos hc]
        exact (delLastLabels_state st1 _).2.2.2.2.2.1
      · rw [if_neg hc]
    obtain ⟨hr_up, hr_bal⟩ := walkItemsA cfg rest metric (k + 1) st2
    constructor
    · rw [hr_up, hst2up, hv_up, hx3]
    · intro hb
      have hpb : (applyPathLabels cfg st (buildName metric (toString k))
          (matchLabels (buildName metric (toString k)) cfg.pathlabels)).1.labels.length =
          (applyPathLabels cfg st (buildName metric (toString k))
            (matchLabels (buildName metric (toString k)) cfg.pathlabels)).1.labelvalues.length := by
        rw [hx1, hx2]
        simp [hb, hAB]
      obtain ⟨hv_bal2, hv_obs⟩ := hv_bal hpb
      have hst2bal : st2.labels.length = st2.labelvalues.length := by
        rw [hst2]
        by_cases hc : 0 < (matchLabels (buildName metric (toString k)) cfg.pathlabels).length
        · rw [if_pos hc]
          exact delLastLabels_balance st1 _ hv_bal2
        · rw [if_neg hc]
          exact hv_bal2
      obtain ⟨hf_bal, hf_obs⟩ := hr_bal hst2bal
      refine ⟨hf_bal, fun ob hob => ?_⟩
      rcases hf_obs ob hob with hin | hlen
      · rw [hst2obs] at hin
        rcases hv_obs ob hin with hin2 | hlen
        · rw [hx8] at hin2
          exact .inl hin2
        · exact .inr hlen
      · exact .inr hlen
end

theorem delLastLabels_restore (st1 : St) (base basev L V : List String) (n : Nat)
    (hl : st1.labels = base ++ L) (hv : st1.labelvalues = basev ++ V)
    (hL : L.length = n) (hV : V.length = n) (hb : base.length = basev.length) :
    (delLastLabels st1 n).labels = base ∧ (delLastLabels st1 n).labelvalues = basev := by
  unfold delLastLabels
  have hlen : st1.labels.length = base.length + n := by
    rw [hl, List.length_append, hL]
  have hcond : n ≤ st1.labels.length := by omega
  rw [if_pos hcond]
  constructor
  · simp only [hl, List.length_append, hL]
    have he2 : base.length + n - n = base.length := by omega
    rw [he2]
    exact List.take_left base L
  · simp only [hv, hl, List.length_append, hL]
    have he2 : base.length + n - n = basev.length := by omega
    rw [he2]
    exact List.take_left basev V

-- Set B of the walker invariants, under capture coherence: the walk
-- restores the label slices exactly, and every observation it records
-- carries the entry label stack as a prefix.
mutual
theorem walkFieldsB (cfg : Cfg) (hcoh : CaptureCoherent cfg) :
    (o : JObject) → ∀ (metric : String) (st : St),
      st.labels.length = st.labelvalues.length →
      ((extractJSONFields cfg st metric o).labels = st.labels ∧
       (extractJSONFields cfg st metric o).labelvalues = st.labelvalues ∧
       ∀ ob ∈ (extractJSONFields cfg st metric o).obs,
         ob ∈ st.obs ∨ st.labels <+: ob.labels)
  | .nil => by
    intro metric st _
    exact ⟨rfl, rfl, fun ob hob => .inl hob⟩
  | .cons k v rest => by
    intro metric st hb
    rw [extractJSONFields_cons cfg st metric k v rest]
    obtain ⟨L, V, hLV, hx1, hx2, _, _, _, _, _, hx8, _⟩ :=
      applyPathLabels_extends cfg (matchLabels (buildName metric k) cfg.pathlabels)
        st (buildName metric k)
    have hcount := hcoh st (buildName metric k)
    have hL : L.length = (matchLabels (buildName metric k) cfg.pathlabels).length := by
      rw [hx1, List.length_append] at hcount
      omega
    have hV : V.length = (matchLabels (buildName metric k) cfg.pathlabels).length := by
      rw [← hLV]
      exact hL
    have hpb : (applyPathLabels cfg st (buildName metric k)
        (matchLabels (buildName metric k) cfg.pathlabels)).1.labels.length =
        (applyPathLabels cfg st (buildName metric k)
          (matchLabels (buildName metric k) cfg.pathlabels)).1.labelvalues.length := by
      rw [hx1, hx2]
      simp [hb, hL, hV]
    obtain ⟨hw1, hw2, hw3⟩ := walkValueB cfg hcoh v
      (applyPathLabels cfg st (buildName metric k)
        (matchLabels (buildName metric k) cfg.pathlabels)).2
      (applyPathLabels cfg st (buildName metric k)
        (matchLabels (buildName metric k) cfg.pathlabels)).1 hpb
    set st1 := walkValue cfg
      (applyPathLabels cfg st (buildName metric k)
        (matchLabels (buildName metric k) cfg.pathlabels)).1
      (applyPathLabels cfg st (buildName metric k)
        (matchLabels (buildName metric k) cfg.pathlabels)).2 v with hst1
    set st2 := if 0 < (matchLabels (buildName metric k) cfg.pathlabels).length then
        delLastLabels st1 (matchLabels (buildName metric k) cfg.pathlabels).length
      else st1 with hst2
    have hst1l : st1.labels = st.labels ++ L := by rw [hw1, hx1]
    have hst1v : st1.labelvalues = st.labelvalues ++ V := by rw [hw2, hx2]
    have hrestore : st2.labels = st.labels ∧ st2.labelvalues = st.labelvalues := by
      rw [hst2]
      by_cases hc : 0 < (matchLabels (buildName metric k) cfg.pathlabels).length
      · rw [if_pos hc]
        exact delLastLabels_restore st1 st.labels st.labelvalues L V _ hst1l hst1v hL hV hb
      · rw [if_neg hc]
        have hn : (matchLabels (buildName metric k) cfg.pathlabels).length = 0 := by omega
        have hLnil : L = [] := List.length_eq_zero.mp (by rw [hL, hn])
        have hVnil : V = [] := List.length_eq_zero.mp (by rw [hV, hn])
        rw [hst1l, hst1v, hLnil, hVnil]
        simp
    have hst2obs : st2.obs = st1.obs := by
      rw [hst2]
      by_cases hc : 0 < (matchLabels (buildName metric k) cfg.pathlabels).length
      · rw [if_pos hc]
        exact (delLastLabels_state st1 _).2.2.2.2.2.1
      · rw [if_neg hc]
    have hb2 : st2.labels.length = st2.labelvalues.length := by
      rw [hrestore.1, hrestore.2, hb]
    obtain ⟨hr1, hr2, hr3⟩ := walkFieldsB cfg hcoh rest metric st2 hb2
    refine ⟨by rw [hr1, hrestore.1], by rw [hr2, hrestore.2], fun ob hob => ?_⟩
    rcases hr3 ob hob with hin | hpre
    · rw [hst2obs] at hin
      rcases hw3 ob hin with hin2 | hpre
      · rw [hx8] at hin2
        exact .inl hin2
      · rw [hx1] at hpre
        exact .inr ((List.prefix_append st.labels L).trans hpre)
    · rw [hrestore.1] at hpre
      exact .inr hpre

theorem walkValueB (cfg : Cfg) (hcoh : CaptureCoherent cfg) :
    (v : JValue) → ∀ (nm : String) (st : St),
      st.labels.length = st.labelvalues.length →
      ((walkValue cfg st nm v).labels = st.labels ∧
       (walkValue cfg st nm v).labelvalues = st.labelvalues ∧
       ∀ ob ∈ (walkValue cfg st nm v).obs, ob ∈ st.obs ∨ st.labels <+: ob.labels)
  | .str vv parsed => by
    intro nm st hb
    by_cases hg : 2 < vv.utf8ByteSize ∧ goByte0 vv = some '{'
    · cases parsed with
      | fail =>
        rw [walkValue_str_fail cfg st nm vv hg]
        exact ⟨rfl, rfl, fun ob hob => .inl hob⟩
      | ok stats =>
        rw [walkValue_str_ok cfg st nm vv stats hg]
        exact walkFieldsB cfg hcoh stats (jmxAdjust cfg nm stats) st hb
    · rw [walkValue_str_neg cfg st nm vv parsed hg]
      exact ⟨rfl, rfl, fun ob hob => .inl hob⟩
  | .int vv => by
    intro nm st hb
    have he : walkValue cfg st nm (.int vv) =
        addGauge cfg st nm ((vv : ℚ)) (nm ++ helpSuffix) := by simp only [walkValue]
    rw [he]
    obtain ⟨h1, h2, _, _, _, h6⟩ := addGauge_state cfg st nm ((vv : ℚ)) (nm ++ helpSuffix)
    refine ⟨h1, h2, fun ob hob => ?_⟩
    rcases h6 with h6 | h6 <;> rw [h6] at hob
    · exact .inl hob
    · rcases List.mem_append.mp hob with hin | hone
      · exact .inl hin
      · rw [List.mem_singleton.mp hone]
        exact .inr List.prefix_rfl
  | .num vv => by
    intro nm st hb
    have he : walkValue cfg st nm (.num vv) = addGauge cfg st nm vv (nm ++ helpSuffix) := by
      simp only [walkValue]
    rw [he]
    obtain ⟨h1, h2, _, _, _, h6⟩ := addGauge_state cfg st nm vv (nm ++ helpSuffix)
    refine ⟨h1, h2, fun ob hob => ?_⟩
    rcases h6 with h6 | h6 <;> rw [h6] at hob
    · exact .inl hob
    · rcases List.mem_append.mp hob with hin | hone
      · exact .inl hin
      · rw [List.mem_singleton.mp hone]
        exact .inr List.prefix_rfl
  | .bool vv => by
    intro nm st hb
    cases vv with
    | true =>
      have he : walkValue cfg st nm (.bool true) =
          addGauge cfg st nm 1 (nm ++ helpSuffix) := by simp only [walkValue]; simp
      rw [he]
      obtain ⟨h1, h2, _, _, _, h6⟩ := addGauge_state cfg st nm 1 (nm ++ helpSuffix)
      refine ⟨h1, h2, fun ob hob => ?_⟩
      rcases h6 with h6 | h6 <;> rw [h6] at hob
      · exact .inl hob
      · rcases List.mem_append.mp hob with hin | hone
        · exact .inl hin
        · rw [List.mem_singleton.mp hone]
          exact .inr List.prefix_rfl
    | false =>
      have he : walkValue cfg st nm (.bool false) =
          addGauge cfg st nm 0 (nm ++ helpSuffix) := by simp only [walkValue]; rfl
      rw [he]
      obtain ⟨h1, h2, _, _, _, h6⟩ := addGauge_state cfg st nm 0 (nm ++ helpSuffix)
      refine ⟨h1, h2, fun ob hob => ?_⟩
      rcases h6 with h6 | h6 <;> rw [h6] at hob
      · exact .inl hob
      · rcases List.mem_append.mp hob with hin | hone
        · exact .inl hin
        · rw [List.mem_singleton.mp hone]
          exact .inr List.prefix_rfl
  | .obj vv => by
    intro nm st hb
    rw [walkValue_obj cfg st nm vv]
    exact walkFieldsB cfg hcoh vv (jmxAdjust cfg nm vv) st hb
  | .arr vv => by
    intro nm st hb
    rw [walkValue_arr cfg st nm vv]
    exact walkItemsB cfg hcoh vv nm 0 st hb
  | .null => by
    intro nm st hb
    exact ⟨rfl, rfl, fun ob hob => .inl hob⟩

theorem walkItemsB (cfg : Cfg) (hcoh : CaptureCoherent cfg) :
    (a : JArray) → ∀ (metric : String) (k : Nat) (st : St),
      st.labels.length = st.labelvalues.length →
      ((extractJSONItems cfg st metric k a).labels = st.labels ∧
       (extractJSONItems cfg st metric k a).labelvalues = st.labelvalues ∧
       ∀ ob ∈ (extractJSONItems cfg st metric k a).obs,
         ob ∈ st.obs ∨ st.labels <+: ob.labels)
  | .anil => by
    intro metric k st _
    exact ⟨rfl, rfl, fun ob hob => .inl hob⟩
  | .acons v rest => by
    intro metric k st hb
    rw [extractJSONItems_acons cfg st metric k v rest]
    obtain ⟨L, V, hLV, hx1, hx2, _, _, _, _, _, hx8, _⟩ :=
      applyPathLabels_extends cfg
        (matchLabels (buildName metric (toString k)) cfg.pathlabels)
        st (buildName metric (toString k))
    have hcount := hcoh st (buildName metric (toString k))
    have hL : L.length =
        (matchLabels (buildName metric (toString k)) cfg.pathlabels).length := by
      rw [hx1, List.length_append] at hcount
      omega
    have hV : V.length =
        (matchLabels (buildName metric (toString k)) cfg.pathlabels).length := by
      rw [← hLV]
      exact hL
    have hpb : (applyPathLabels cfg st (buildName metric (toString k))
        (matchLabels (buildName metric (toString k)) cfg.pathlabels)).1.labels.length =
        (applyPathLabels cfg st (buildName metric (toString k))
          (matchLabels (buildName metric (toString k)) cfg.pathlabels)).1.labelvalues.length := by
      rw [hx1, hx2]
      simp [hb, hL, hV]
    obtain ⟨hw1, hw2, hw3⟩ := walkValueB cfg hcoh v
      (applyPathLabels cfg st (buildName metric (toString k))
        (matchLabels (buildName metric (toString k)) cfg.pathlabels)).2
      (applyPathLabels cfg st (buildName metric (toString k))
        (matchLabels (buildName metric (toString k)) cfg.pathlabels)).1 hpb
    set st1 := walkValue cfg
      (applyPathLabels cfg st (buildName metric (toString k))
        (matchLabels (buildName metric (toString k)) cfg.pathlabels)).1
      (applyPathLabels cfg st (buildName metric (toString k))
        (matchLabels (buildName metric (toString k)) cfg.pathlabels)).2 v with hst1
    set st2 := if 0 < (matchLabels (buildName metric (toString k)) cfg.pathlabels).length then
        delLastLabels st1 (matchLabels (buildName metric (toString k)) cfg.pathlabels).length
      else st1 with hst2
    have hst1l : st1.labels = st.labels ++ L := by rw [hw1, hx1]
    have hst1v : st1.labelvalues = st.labelvalues ++ V := by rw [hw2, hx2]
    have hrestore : st2.labels = st.labels ∧ st2.labelvalues = st.labelvalues := by
      rw [hst2]
      by_cases hc : 0 < (matchLabels (buildName metric (toString k)) cfg.pathlabels).length
      · rw [if_pos hc]
        exact delLastLabels_restore st1 st.labels st.labelvalues L V _ hst1l hst1v hL hV hb
      · rw [if_neg hc]
        have hn : (matchLabels (buildName metric (toString k)) cfg.pathlabels).length = 0 := by
          omega
        have hLnil : L = [] := List.length_eq_zero.mp (by rw [hL, hn])
        have hVnil : V = [] := List.length_eq_zero.mp (by rw [hV, hn])
        rw [hst1l, hst1v, hLnil, hVnil]
        simp
    have hst2obs : st2.obs = st1.obs := by
      rw [hst2]
      by_cases hc : 0 < (matchLabels (buildName metric (toString k)) cfg.pathlabels).length
      · rw [if_pos hc]
        exact (delLastLabels_state st1 _).2.2.2.2.2.1
      · rw [if_neg hc]
    have hb2 : st2.labels.length = st2.labelvalues.length := by
      rw [hrestore.1, hrestore.2, hb]
    obtain ⟨hr1, hr2, hr3⟩ := walkItemsB cfg hcoh rest metric (k + 1) st2 hb2
    refine ⟨by rw [hr1, hrestore.1], by rw [hr2, hrestore.2], fun ob hob => ?_⟩
    rcases hr3 ob hob with hin | hpre
    · rw [hst2obs] at hin
      rcases hw3 ob hin with hin2 | hpre
      · rw [hx8] at hin2
        exact .inl hin2
      · rw [hx1] at hpre
        exact .inr ((List.prefix_append st.labels L).trans hpre)
    · rw [hrestore.1] at hpre
      exact .inr hpre
end

/-! ### C4: label stack discipline -/

/-- C4 (amended): the parallel label slices keep equal lengths
throughout any walk, and every recorded observation carries
equal-length slices; provided every matched path-label regex still
yields its capture-group submatch on the working name at the moment it
is processed (the CaptureCoherent condition: the loop pushes exactly
one pair per matched label at every node), the walk restores the label
stack exactly and every observation emitted inside the walk carries the
entry stack, hence any pushed path label, as a prefix of its labels;
and capture coherence holds automatically whenever at most one path
label matches any node and each configured regex yields its capture
group on the names it matches. -/
theorem c4_label_stack_discipline (cfg : Cfg) (st : St) (metric : String) (o : JObject) :
    (st.labels.length = st.labelvalues.length →
      ((extractJSONFields cfg st metric o).labels.length =
        (extractJSONFields cfg st metric o).labelvalues.length ∧
       ∀ ob ∈ (extractJSONFields cfg st metric o).obs,
         ob ∈ st.obs ∨ ob.labels.length = ob.labelvalues.length)) ∧
    (CaptureCoherent cfg → st.labels.length = st.labelvalues.length →
      ((extractJSONFields cfg st metric o).labels = st.labels ∧
       (extractJSONFields cfg st metric o).labelvalues = st.labelvalues ∧
       ∀ ob ∈ (extractJSONFields cfg st metric o).obs,
         ob ∈ st.obs ∨ st.labels <+: ob.labels)) ∧
    ((cfg.pathlabels.map Prod.fst).Nodup →
     (∀ s : String, (matchLabels s cfg.pathlabels).length ≤ 1) →
     (∀ p ∈ cfg.pathlabels, ∀ s : String, p.2.matchString s = true →
       1 < (p.2.findStringSubmatch s).length) →
     CaptureCoherent cfg) :=
  ⟨fun hb => (walkFieldsA cfg o metric st).2 hb,
   fun hcoh hb => walkFieldsB cfg hcoh o metric st hb,
   fun hnd hone hcap => captureCoherent_of_single cfg hnd hone hcap⟩

/-- A path label consuming the whole parent key P. -/
def rxAnc : Regex := ⟨fun s => s = "P", fun s => if s = "P" then ["P", "P"] else []⟩

/-- A path label stripping x out of the path anc_xy. -/
def rxStripX : Regex :=
  ⟨fun s => s = "anc_xy", fun s => if s = "anc_xy" then ["x", "x"] else []⟩

/-- A path label matching anc_xy whose capture no longer matches once
rxStripX has removed the x. -/
def rxStripXY : Regex :=
  ⟨fun s => s = "anc_xy", fun s => if s = "anc_xy" then ["xy", "y"] else []⟩

/-- A configuration on which two path labels match the same node and the
first strip breaks the second match. -/
def cfgOverpop : Cfg :=
  { rcfg with pathlabels := [("anc", rxAnc), ("a", rxStripX), ("b", rxStripXY)] }

/-- The document of the over-popping scenario. -/
def docOverpop : JObject :=
  .cons "P" (.obj (.cons "xy" (.int 1) (.cons "m" (.int 2) .nil))) .nil

/-- Counterexample for C4 as stated: at node anc_xy both the a and the b
path labels match, but after rxStripX rewrites the working name the b
regex no longer submatches, so only one pair is pushed while two are
popped.  The pop removes the enclosing anc path label, and the sibling
metric anc_m inside the anc subtree is emitted without it. -/
theorem c4_label_stack_discipline_counterexample :
    (extractJSONFields cfgOverpop st0 "" docOverpop).obs.map
        (fun ob => (ob.name, ob.labels)) =
      [("anc_y", ["anc", "a"]), ("anc_m", [])] := by decide

/-- Witness for C4 at the single-label node configuration, where at
most one path label matches any name: capture coherence follows from
the single-match conjunct, and the walk of a one-field document pushes
and pops the node label, restoring the empty stack. -/
theorem c4_label_stack_discipline_witness :
    (extractJSONFields cfgNode st0 "" (.cons "nodes_xyz" (.int 7) .nil)).labels =
      st0.labels ∧
    (extractJSONFields cfgNode st0 "" (.cons "nodes_xyz" (.int 7) .nil)).labels.length =
      (extractJSONFields cfgNode st0 "" (.cons "nodes_xyz" (.int 7) .nil)).labelvalues.length :=
  ⟨((c4_label_stack_discipline cfgNode st0 "" (.cons "nodes_xyz" (.int 7) .nil)).2.1
      ((c4_label_stack_discipline cfgNode st0 "" (.cons "nodes_xyz" (.int 7) .nil)).2.2
        (by decide)
        (fun s => matchLabels_singleton_le_one s ("node", rxNode))
        (fun p hp s hm => by
          rw [List.mem_singleton.mp hp] at hm ⊢
          have hs : s = "nodes_xyz" := by simpa [rxNode] using hm
          simp [rxNode, hs]))
      rfl).1,
   ((c4_label_stack_discipline cfgNode st0 "" (.cons "nodes_xyz" (.int 7) .nil)).1 rfl).1⟩

/-! ### C3: the availability gauge -/

/-- The value the availability gauge takes right after one URL of the
fetch loop: 0 after a transport or body-read failure, 1 after a body was
fetched (whether or not its JSON parses). -/
def upOf : Fetch → ℚ
  | .errTransport => 0
  | .errRead => 0
  | .okBody _ => 1

theorem fetchStep_up (cfg : Cfg) (st : St) (r : Fetch) :
    (fetchStep cfg st r).up = upOf r := by
  cases r with
  | errTransport => rfl
  | errRead => rfl
  | okBody parsed =>
    cases parsed with
    | none => rfl
    | some allStats =>
      have he : fetchStep cfg st (.okBody (some allStats)) =
          extractJSON cfg { st with up := 1 } "" allStats := rfl
      rw [he]
      unfold extractJSON
      rw [(walkFieldsA cfg allStats (jmxAdjust cfg "" allStats) { st with up := 1 }).1]
      rfl

theorem fetchLoop_up_last (cfg : Cfg) (fetch : String → Fetch) :
    ∀ (urls : List String) (st : St) (hne : urls ≠ []),
      (fetchLoop cfg fetch st urls).up = upOf (fetch (urls.getLast hne)) := by
  intro urls
  induction urls with
  | nil => intro st hne; exact absurd rfl hne
  | cons u rest ih =>
    intro st hne
    cases rest with
    | nil =>
      have he : fetchLoop cfg fetch st [u] = fetchStep cfg st (fetch u) := rfl
      rw [he, fetchStep_up]
      rfl
    | cons u2 rest2 =>
      have he : fetchLoop cfg fetch st (u :: u2 :: rest2) =
          fetchLoop cfg fetch (fetchStep cfg st (fetch u)) (u2 :: rest2) := rfl
      rw [he, ih (fetchStep cfg st (fetch u)) (by simp)]
      rfl

/-- C3 (amended): after a refresh cycle that walked all configured URLs,
the availability gauge reflects only the outcome of the last configured
URL: 1 when its body was fetched and read, 0 when its fetch or read
failed.  Failed URLs earlier in the list are skipped without aborting
the cycle and leave no trace in the gauge. -/
theorem c3_up_last_url (cfg : Cfg) (fetch : String → Fetch) (now endTime : Int)
    (st : St) (hnow : st.nextrefresh < now) (hne : cfg.urls ≠ []) :
    (Collect cfg fetch now endTime st).up = upOf (fetch (cfg.urls.getLast hne)) := by
  unfold Collect
  rw [if_pos hnow]
  exact fetchLoop_up_last cfg fetch cfg.urls (evictPass st) hne

/-- A two-URL configuration whose first URL fails while the second
succeeds. -/
def cfgAB : Cfg := { rcfg with urls := ["a", "b"] }

/-- The fetch oracle of the mixed outcome scenario. -/
def fetchAB : String → Fetch :=
  fun u => if u = "a" then .errTransport else .okBody (some .nil)

/-- Counterexample for C3 as stated: URL a fails with a transport error,
yet after the cycle the availability gauge reads 1 because the last URL
overwrote it, where the claim requires 0. -/
theorem c3_up_last_url_counterexample :
    fetchAB "a" = .errTransport ∧ (Collect cfgAB fetchAB 1 1 st0).up = 1 := by
  constructor
  · rfl
  · decide

/-- Witness for C3 at the mixed scenario: the gauge equals the outcome
of the last URL. -/
theorem c3_up_last_url_witness :
    (Collect cfgAB fetchAB 1 1 st0).up = upOf (fetchAB (cfgAB.urls.getLast (by decide))) :=
  c3_up_last_url cfgAB fetchAB 1 1 st0 (by decide) (by decide)

/-! ### C1: generation-based eviction -/

theorem evictStep_other (st : St) (e : String × Nat) (name : String) (h : name ≠ e.1) :
    alookup (evictStep st e).updated name = alookup st.updated name ∧
    alookup (evictStep st e).exist name = alookup st.exist name ∧
    alookup (evictStep st e).gauges name = alookup st.gauges name := by
  unfold evictStep
  by_cases hc : e.2 < lookupD st.exist e.1 0
  · rw [if_pos hc]
    exact ⟨alookup_adel_other _ _ _ h, alookup_adel_other _ _ _ h,
      alookup_adel_other _ _ _ h⟩
  · rw [if_neg hc]
    exact ⟨alookup_aset_other _ _ _ _ h, alookup_aset_other _ _ _ _ h, rfl⟩

theorem foldl_evict_preserve (ls : List (String × Nat)) (name : String) :
    ∀ st : St, name ∉ ls.map Prod.fst →
      alookup (ls.foldl evictStep st).updated name = alookup st.updated name ∧
      alookup (ls.foldl evictStep st).exist name = alookup st.exist name ∧
      alookup (ls.foldl evictStep st).gauges name = alookup st.gauges name := by
  induction ls with
  | nil => intro st _; exact ⟨rfl, rfl, rfl⟩
  | cons e tl ih =>
    intro st h
    have h1 : name ≠ e.1 ∧ name ∉ tl.map Prod.fst := by
      simp only [List.map, List.mem_cons, not_or] at h
      exact h
    obtain ⟨p1, p2, p3⟩ := ih (evictStep st e) h1.2
    obtain ⟨q1, q2, q3⟩ := evictStep_other st e name h1.1
    exact ⟨p1.trans q1, p2.trans q2, p3.trans q3⟩

theorem foldl_evict_mem (ls : List (String × Nat)) (name : String) (u : Nat) :
    ∀ st : St, (ls.map Prod.fst).Nodup → (name, u) ∈ ls →
      alookup st.updated name = some u →
      ((u < lookupD st.exist name 0 →
         alookup (ls.foldl evictStep st).updated name = none ∧
         alookup (ls.foldl evictStep st).exist name = none ∧
         alookup (ls.foldl evictStep st).gauges name = none) ∧
       (¬ u < lookupD st.exist name 0 →
         alookup (ls.foldl evictStep st).updated name = some 0 ∧
         alookup (ls.foldl evictStep st).exist name = some u)) := by
  induction ls with
  | nil =>
    intro st _ hmem _
    simp at hmem
  | cons e tl ih =>
    intro st hnd hmem hup
    have hfold : (e :: tl).foldl evictStep st = tl.foldl evictStep (evictStep st e) := rfl
    by_cases hname : name = e.1
    · have he : e = (name, u) := by
        rcases List.mem_cons.mp hmem with heq | htl
        · exact heq.symm
        · exfalso
          have hin : name ∈ tl.map Prod.fst := List.mem_map.mpr ⟨(name, u), htl, rfl⟩
          rw [hname] at hin
          exact (List.nodup_cons.mp hnd).1 hin
      have hnin : name ∉ tl.map Prod.fst := by
        rw [hname]
        exact (List.nodup_cons.mp hnd).1
      constructor
      · intro hlt
        have he1 : e.1 = name := by rw [he]
        have he2 : e.2 = u := by rw [he]
        have hstep : evictStep st e =
            { st with
              updated := adel st.updated name,
              exist := adel st.exist name,
              gauges := adel st.gauges name } := by
          unfold evictStep
          rw [he1, he2, if_pos hlt]
        rw [hfold]
        obtain ⟨p1, p2, p3⟩ := foldl_evict_preserve tl name (evictStep st e) hnin
        rw [p1, p2, p3, hstep]
        exact ⟨alookup_adel_self _ _, alookup_adel_self _ _, alookup_adel_self _ _⟩
      · intro hge
        have hD : lookupD st.updated name 0 = u := by
          unfold lookupD
          rw [hup]
          rfl
        have he1 : e.1 = name := by rw [he]
        have he2 : e.2 = u := by rw [he]
        have hstep : evictStep st e =
            { st with
              exist := aset st.exist name u,
              updated := aset st.updated name 0 } := by
          unfold evictStep
          rw [he1, he2, if_neg hge, hD]
        rw [hfold]
        obtain ⟨p1, p2, _⟩ := foldl_evict_preserve tl name (evictStep st e) hnin
        rw [p1, p2, hstep]
        exact ⟨alookup_aset_self _ _ _, alookup_aset_self _ _ _⟩
    · have htl : (name, u) ∈ tl := by
        rcases List.mem_cons.mp hmem with heq | htl
        · exfalso
          apply hname
          rw [← heq]
        · exact htl
      obtain ⟨q1, q2, q3⟩ := evictStep_other st e name hname
      have hup2 : alookup (evictStep st e).updated name = some u := by
        rw [q1]
        exact hup
      have hE : lookupD (evictStep st e).exist name 0 = lookupD st.exist name 0 := by
        unfold lookupD
        rw [q2]
      have hrec := ih (evictStep st e) (List.nodup_cons.mp hnd).2 htl hup2
      rw [hfold]
      constructor
      · intro hlt
        exact hrec.1 (by rw [hE]; exact hlt)
      · intro hge
        exact hrec.2 (by rw [hE]; exact hge)

/-- C1 (amended): the eviction pass at the start of a refresh cycle
deletes exactly those series whose updated counter is strictly below the
exist baseline, carrying forward the latest count as the new baseline
and resetting the live counter to 0 for the survivors; untouched names
keep their entries.  Eviction is therefore one cycle delayed: a metric
observed in cycle N and absent from cycle N+1 still appears in the
report of cycle N+1 and disappears from cycle N+2 onward, as the closed
three-cycle run shows. -/
theorem c1_eviction_spec (st : St) (hnd : (st.updated.map Prod.fst).Nodup) :
    (∀ name u, (name, u) ∈ st.updated →
      ((u < lookupD st.exist name 0 →
         alookup (evictPass st).updated name = none ∧
         alookup (evictPass st).exist name = none ∧
         alookup (evictPass st).gauges name = none) ∧
       (¬ u < lookupD st.exist name 0 →
         alookup (evictPass st).updated name = some 0 ∧
         alookup (evictPass st).exist name = some u))) ∧
    (∀ name, name ∉ st.updated.map Prod.fst →
      alookup (evictPass st).updated name = alookup st.updated name ∧
      alookup (evictPass st).exist name = alookup st.exist name ∧
      alookup (evictPass st).gauges name = alookup st.gauges name) ∧
    ((Collect rcfg fetchEmpty 23 23 (Collect rcfg fetchEmpty 12 12
        (Collect rcfg fetchDoc1 1 1 st0))).gauges.map Prod.fst = []) := by
  refine ⟨?_, ?_, ?_⟩
  · intro name u hmem
    exact foldl_evict_mem st.updated name u st hnd hmem
      (alookup_of_mem_nodup st.updated name u hmem hnd)
  · intro name h
    exact foldl_evict_preserve st.updated name st h
  · decide

/-- Counterexample for C1 as stated: the metric a_b is observed in the
first cycle, not observed in the second (its live counter stays 0), yet
after the second cycle completes it is still among the reported gauge
names. -/
theorem c1_eviction_spec_counterexample :
    ((Collect rcfg fetchDoc1 1 1 st0).gauges.map Prod.fst = ["a_b"]) ∧
    ((Collect rcfg fetchEmpty 12 12 (Collect rcfg fetchDoc1 1 1 st0)).updated =
      [("a_b", 0)]) ∧
    ((Collect rcfg fetchEmpty 12 12 (Collect rcfg fetchDoc1 1 1 st0)).gauges.map
      Prod.fst = ["a_b"]) := by decide

/-- A state with one stale series: live counter 0, baseline 1. -/
def stStale : St :=
  ⟨[], [], 0, [("m", ⟨[], "h", []⟩)], [("m", 0)], [("m", 1)], 0, [], []⟩

/-- Witness for C1 (amended) at a concrete stale state: the eviction
pass removes the series and its counters. -/
theorem c1_eviction_spec_witness :
    alookup (evictPass stStale).updated "m" = none ∧
    alookup (evictPass stStale).exist "m" = none ∧
    alookup (evictPass stStale).gauges "m" = none :=
  ((c1_eviction_spec stStale (by decide)).1 "m" 0 (by decide)).1 (by decide)

end JsonExporter
